import Mathlib

/-!
# rules_proto: gazelle/protoc rule synthesis, plugin registry, file matcher and laze

A shallow embedding of the Go sources

* `gazelle/protoc/plugin_configuration.go`
* `gazelle/protoc/proto_compile_rule.go`
* `gazelle/protoc/proto_file.go`
* `tools/laze/gazelle.go`

Modelling conventions.

* A Go `string` is a Lean `String`.  Go compares strings byte by byte; on UTF-8
  text that order is the code point order Lean uses for `String`.
* A Go slice `[]T` is a `List T`; `nil` and the empty slice are both `[]` (the
  code only takes `len`, ranges, sorts and joins, none of which tells them apart).
* A Go `map[string]V` is an association list `List (String × V)` whose keys are
  pairwise distinct (`GoMap.WF`).  The order of the list is the order in which
  `range` happens to enumerate the map, which Go leaves unspecified.  The `nil`
  map and the empty map are both `[]`.
* Code that writes through a slice or a pointer it was given returns the state
  of that argument after the call next to its result.  Distinct map entries are
  taken to own distinct backing arrays.
-/

namespace Protoc

/-! ## Go maps -/

/-- A Go map with string keys, as the list of its entries in enumeration order. -/
abbrev GoMap (V : Type) := List (String × V)

namespace GoMap

/-- The keys of the map in enumeration order (`for k := range m`). -/
def keys {V : Type} (m : GoMap V) : List String := m.map Prod.fst

/-- Well-formedness: a Go map holds every key at most once. -/
def WF {V : Type} (m : GoMap V) : Prop := (keys m).Nodup

instance {V : Type} (m : GoMap V) : Decidable (WF m) :=
  inferInstanceAs (Decidable (keys m).Nodup)

/-- The comma-ok lookup `v, ok := m[k]`. -/
def get? {V : Type} : GoMap V → String → Option V
  | [], _ => none
  | (k, v) :: rest, key => if k = key then some v else get? rest key

/-- The assignment `m[k] = v`: overwrite the entry of `k`, or add a new one. -/
def set {V : Type} : GoMap V → String → V → GoMap V
  | [], key, v => [(key, v)]
  | (k, w) :: rest, key, v => if k = key then (k, v) :: rest else (k, w) :: set rest key v

/-- The builtin `len(m)`. -/
def len {V : Type} (m : GoMap V) : Nat := m.length

end GoMap

/-! ## Standard library: `sort.Strings` and `strings.Join` -/

/-- Go's `sort.Strings`: sorts a slice of strings in increasing order, comparing
strings lexicographically, character by character. -/
def sort_Strings (xs : List String) : List String :=
  xs.insertionSort (fun a b => a.data ≤ b.data)

/-- The loop of `strings.Join` over `elems[1:]`: write `sep`, then the element. -/
def strings_Join.loop (sep : String) : String → List String → String
  | b, [] => b
  | b, s :: rest => strings_Join.loop sep (b ++ sep ++ s) rest

/-- Go's `strings.Join`: the elements of `elems` with `sep` between neighbours. -/
def strings_Join (elems : List String) (sep : String) : String :=
  match elems with
  | [] => ""
  | [e] => e
  | e :: rest => strings_Join.loop sep e rest

/-! ## Standard library: `filepath.Ext`, `strings.TrimSuffix`, `strings.SplitN`

Indices into a string count characters.  The code only cuts strings at `.`, `/`
and `;`, which are single bytes, so the pieces are the ones Go cuts at byte
indices. -/

/-- The loop of `filepath.Ext`, from the last character down: `rev` holds
`path[0..i]` reversed, `acc` is `path[i+1:]`.  The path separator is `/`. -/
def filepath_Ext.loop : List Char → List Char → List Char
  | [], _ => []
  | c :: rest, acc =>
    if c = '/' then []
    else if c = '.' then c :: acc
    else filepath_Ext.loop rest (c :: acc)

/-- Go's `filepath.Ext`: the suffix beginning at the final dot in the final
element of `path`; empty if there is no dot. -/
def filepath_Ext (path : String) : String :=
  ⟨filepath_Ext.loop path.data.reverse []⟩

/-- Go's `strings.HasSuffix`:
`len(s) >= len(suffix) && s[len(s)-len(suffix):] == suffix`. -/
def strings_HasSuffix (s suffix : String) : Bool :=
  decide (s.data.length ≥ suffix.data.length) &&
    decide (s.data.drop (s.data.length - suffix.data.length) = suffix.data)

/-- Go's `strings.TrimSuffix`: `s` without the trailing `suffix`, or `s` itself
when it does not end with `suffix`. -/
def strings_TrimSuffix (s suffix : String) : String :=
  if strings_HasSuffix s suffix then ⟨s.data.take (s.data.length - suffix.data.length)⟩
  else s

/-- One round of the loop of `strings.SplitN` for a one-character separator:
with `m := Index(s, sep)`, the pair `s[:m]`, `s[m+1:]`, or `none` when `m < 0`. -/
def strings_SplitN.cut (sep : Char) : List Char → Option (List Char × List Char)
  | [] => none
  | c :: cs =>
    if c = sep then some ([], cs)
    else (strings_SplitN.cut sep cs).map (fun p => (c :: p.1, p.2))

/-- The loop of `strings.SplitN`: at most `n` more cuts, then the rest. -/
def strings_SplitN.loop (sep : Char) : Nat → List Char → List String
  | 0, s => [⟨s⟩]
  | n + 1, s =>
    match strings_SplitN.cut sep s with
    | none => [⟨s⟩]
    | some (a, rest) => ⟨a⟩ :: strings_SplitN.loop sep n rest

/-- Go's `strings.SplitN(s, sep, n)` for a one-character separator and `n ≥ 0`:
at most `n` substrings, the last one the unsplit remainder; `n = 0` gives `nil`. -/
def strings_SplitN (s : String) (sep : Char) (n : Nat) : List String :=
  if n = 0 then [] else strings_SplitN.loop sep (n - 1) s.data

/-! ## Errors -/

/-- A Go `error` value: an error of some other package, known by its message,
or the error that `fmt.Errorf` builds with the verb `%w`. -/
inductive GoError where
  | errorString (s : String)
  | wrapError (msg : String) (err : GoError)
  deriving DecidableEq

/-- The method `Error()`. -/
def GoError.Error : GoError → String
  | .errorString s => s
  | .wrapError msg _ => msg

/-- The method `Unwrap()`, as `errors.Unwrap` calls it. -/
def GoError.Unwrap : GoError → Option GoError
  | .errorString _ => none
  | .wrapError _ err => some err

end Protoc

/-! ## `build.Expr`, `label.Label` and `rule.Rule` (buildtools, bazel-gazelle) -/

namespace build

/-- The fragment of `build.Expr` that the package produces. -/
inductive Expr where
  | StringExpr (Value : String)
  | ListExpr (List : List Expr)
  | DictExpr (List : List (Expr × Expr))

/-- One `KeyValueExpr` of a dict whose key and value are both string literals. -/
def KeyValueExpr (key value : String) : Expr × Expr :=
  (.StringExpr key, .StringExpr value)

end build

namespace label

/-- Gazelle's `label.Label`. -/
structure Label where
  Repo : String
  Pkg : String
  Name : String
  Relative : Bool
  deriving DecidableEq

end label

/-! ## The declaration nodes of `github.com/emicklei/proto` -/

/-- The literal `proto.Literal`, by its source text. -/
structure proto.Literal where
  Source : String
  deriving DecidableEq

/-- The node `proto.Option`. -/
structure proto.Option where
  Name : String
  Constant : proto.Literal
  deriving DecidableEq

/-- The node `proto.Package`. -/
structure proto.Package where
  Name : String
  deriving DecidableEq

/-- The node `proto.Import`. -/
structure proto.Import where
  Filename : String
  deriving DecidableEq

/-- The node `proto.Service`, by its name. -/
structure proto.Service where
  Name : String
  deriving DecidableEq

/-- The node `proto.Message`, by its name. -/
structure proto.Message where
  Name : String
  deriving DecidableEq

/-- The node `proto.EnumField`, with the options attached to the value. -/
structure proto.EnumField where
  Name : String
  Options : List proto.Option
  deriving DecidableEq

/-- The node `proto.Enum`, with the options and the values it holds. -/
structure proto.Enum where
  Name : String
  Options : List proto.Option
  Fields : List proto.EnumField
  deriving DecidableEq

/-- What a handler of `proto.Walk` can tell about an element: the six kinds of
declaration the package handles, or anything else. -/
inductive proto.Node where
  | Package (p : proto.Package)
  | Option (o : proto.Option)
  | Import (i : proto.Import)
  | Service (s : proto.Service)
  | Message (m : proto.Message)
  | Enum (e : proto.Enum)
  | Other

/-- An element of a parsed definition with the elements it contains (none when
the element is not a container). -/
inductive proto.Visitee where
  | mk (node : proto.Node) (elements : List proto.Visitee)

/-- The handler `proto.WithPackage(apply)`. -/
def proto.WithPackage {σ : Type} (apply : σ → proto.Package → σ) (st : σ) : proto.Node → σ
  | .Package p => apply st p
  | _ => st

/-- The handler `proto.WithOption(apply)`. -/
def proto.WithOption {σ : Type} (apply : σ → proto.Option → σ) (st : σ) : proto.Node → σ
  | .Option o => apply st o
  | _ => st

/-- The handler `proto.WithImport(apply)`. -/
def proto.WithImport {σ : Type} (apply : σ → proto.Import → σ) (st : σ) : proto.Node → σ
  | .Import i => apply st i
  | _ => st

/-- The handler `proto.WithService(apply)`. -/
def proto.WithService {σ : Type} (apply : σ → proto.Service → σ) (st : σ) : proto.Node → σ
  | .Service s => apply st s
  | _ => st

/-- The handler `proto.WithMessage(apply)`. -/
def proto.WithMessage {σ : Type} (apply : σ → proto.Message → σ) (st : σ) : proto.Node → σ
  | .Message m => apply st m
  | _ => st

/-- The handler `proto.WithEnum(apply)`. -/
def proto.WithEnum {σ : Type} (apply : σ → proto.Enum → σ) (st : σ) : proto.Node → σ
  | .Enum e => apply st e
  | _ => st

mutual

/-- The function `proto.Walk`: every element in order, each handler on the
element, then the elements it contains. -/
def proto.Walk {σ : Type} (handlers : List (σ → proto.Node → σ)) :
    σ → List proto.Visitee → σ
  | st, [] => st
  | st, v :: rest => proto.Walk handlers (proto.Walk.visit handlers st v) rest

/-- One element of the walk. -/
def proto.Walk.visit {σ : Type} (handlers : List (σ → proto.Node → σ)) :
    σ → proto.Visitee → σ
  | st, .mk node elements =>
    proto.Walk handlers (handlers.foldl (fun st h => h st node) st) elements

end

namespace rule

open Protoc

/-- Gazelle's `rule.ExprFromValue` on a `string`. -/
def ExprFromString (s : String) : build.Expr := .StringExpr s

/-- Gazelle's `rule.ExprFromValue` on a `[]string`. -/
def ExprFromStrings (ss : List String) : build.Expr := .ListExpr (ss.map .StringExpr)

/-- Gazelle's `rule.Rule`: kind, attributes (by key) and leading comments. -/
structure Rule where
  kind : String
  attrs : GoMap build.Expr
  comments : List String

/-- Gazelle's `rule.NewRule(kind, name)`: the new rule has the `name` attribute only. -/
def NewRule (kind name : String) : Rule :=
  { kind := kind, attrs := [("name", .StringExpr name)], comments := [] }

namespace Rule

/-- Gazelle's `(*Rule).SetAttr`, on a value already converted by `ExprFromValue`. -/
def SetAttr (r : Rule) (key : String) (value : build.Expr) : Rule :=
  { r with attrs := GoMap.set r.attrs key value }

/-- Gazelle's `(*Rule).AddComment`. -/
def AddComment (r : Rule) (line : String) : Rule :=
  { r with comments := r.comments ++ [line] }

/-- Gazelle's `(*Rule).Attr`: the value of the attribute, `none` when it is absent. -/
def Attr (r : Rule) (key : String) : Option build.Expr := GoMap.get? r.attrs key

/-- Gazelle's `(*Rule).Kind`. -/
def Kind (r : Rule) : String := r.kind

/-- Gazelle's `(*Rule).Name`: the string value of the `name` attribute. -/
def Name (r : Rule) : String :=
  match r.Attr "name" with
  | some (.StringExpr s) => s
  | _ => ""

end Rule

end rule

namespace Protoc

open label (Label)

/-! ## plugin_configuration.go -/

/-- PluginConfiguration represents the configuration of a protoc plugin. -/
structure PluginConfiguration where
  Label : Label
  Mappings : GoMap String
  Name : String
  Options : List String
  Out : String
  Srcs : List String

/-- The body of the loop of `GetPluginOptions`. -/
def GetPluginOptions.step (options : GoMap (List String)) (plugin : PluginConfiguration) :
    GoMap (List String) :=
  if plugin.Options.length = 0 then options
  else GoMap.set options plugin.Name plugin.Options

/-- GetPluginOptions returns the list of options by plugin.  The second
component is the plugin list after the call: the function only reads it. -/
def GetPluginOptions (plugins : List PluginConfiguration) :
    GoMap (List String) × List PluginConfiguration :=
  (plugins.foldl GetPluginOptions.step [], plugins)

/-- The last plugin of the list that has the given name and declares options. -/
def GetPluginOptions.last (name : String) (plugins : List PluginConfiguration) :
    Option PluginConfiguration :=
  plugins.reverse.find? (fun p => decide (p.Name = name ∧ p.Options ≠ []))

/-- The body of the loop of `GetPluginOuts`. -/
def GetPluginOuts.step (outs : GoMap String) (plugin : PluginConfiguration) : GoMap String :=
  if plugin.Out = "" then outs
  else GoMap.set outs plugin.Name plugin.Out

/-- GetPluginOuts returns the output location by plugin. -/
def GetPluginOuts (plugins : List PluginConfiguration) : GoMap String :=
  plugins.foldl GetPluginOuts.step []

/-- The last plugin of the list that has the given name and declares an output. -/
def GetPluginOuts.last (name : String) (plugins : List PluginConfiguration) :
    Option PluginConfiguration :=
  plugins.reverse.find? (fun p => decide (p.Name = name ∧ p.Out ≠ ""))

/-! ## proto_compile_rule.go -/

/-- The two methods of the `ProtoLibrary` interface that the rule calls, as the
strings they return. -/
structure ProtoLibrary where
  BaseName : String
  Name : String

/-- ProtoCompileRule implements a ruleProvider for the proto_compile rule. -/
structure ProtoCompileRule where
  prefix_ : String
  library : ProtoLibrary
  plugins : List Label
  generatedSrcs : List String
  generatedOptions : GoMap (List String)
  visibility : List String
  comment : List String

/-- NewProtoCompileRule constructs a new ProtoCompileRule; `visibility` and
`comment` keep their zero value. -/
def NewProtoCompileRule (prefix_ : String) (library : ProtoLibrary) (plugins : List Label)
    (generatedSrcs : List String) (generatedOptions : GoMap (List String)) : ProtoCompileRule :=
  { prefix_ := prefix_, library := library, plugins := plugins,
    generatedSrcs := generatedSrcs, generatedOptions := generatedOptions,
    visibility := [], comment := [] }

namespace ProtoCompileRule

/-- Kind implements part of the ruleProvider interface. -/
def Kind (_s : ProtoCompileRule) : String := "proto_compile"

/-- Name implements part of the ruleProvider interface:
`fmt.Sprintf("%s_%s_compile", s.library.BaseName(), s.prefix)`. -/
def Name (s : ProtoCompileRule) : String :=
  s.library.BaseName ++ "_" ++ s.prefix_ ++ "_compile"

/-- Visibility implements part of the ruleProvider interface. -/
def Visibility (s : ProtoCompileRule) : List String := s.visibility

/-- Deps computes the dependencies of the rule. -/
def Deps (s : ProtoCompileRule) : List String := [":" ++ s.library.Name]

/-- pluginLabels returns the label strings for the plugins; `str` is gazelle's
`Label.String`. -/
def pluginLabels (str : Label → String) (s : ProtoCompileRule) : List String :=
  s.plugins.map str

/-- GeneratedSrcs returns the source files that are generated by the rule. -/
def GeneratedSrcs (s : ProtoCompileRule) : List String := s.generatedSrcs

/-- The first loop of `Options`: `for k := range s.generatedOptions`. -/
def Options.keys (m : GoMap (List String)) : List String :=
  m.foldl (fun keys kv => keys ++ [kv.1]) []

/-- The effect of `sort.Strings(opts)` on the map: `opts` shares its backing
array with the slice stored under `key`, which is sorted in place. -/
def Options.sortStored (m : GoMap (List String)) (key : String) : GoMap (List String) :=
  m.map (fun kv => if kv.1 = key then (kv.1, sort_Strings kv.2) else kv)

/-- The body of the second loop of `Options`, on the items built so far and the
state of the map. -/
def Options.step (st : List (build.Expr × build.Expr) × GoMap (List String)) (key : String) :
    List (build.Expr × build.Expr) × GoMap (List String) :=
  let opts := sort_Strings ((GoMap.get? st.2 key).getD [])
  (st.1 ++ [build.KeyValueExpr key (strings_Join opts ",")], Options.sortStored st.2 key)

/-- Options computes the options string_list_dict.  The second component is
the rule after the call, whose stored option lists have been sorted. -/
def Options (s : ProtoCompileRule) : build.Expr × ProtoCompileRule :=
  let keys := sort_Strings (Options.keys s.generatedOptions)
  let st := keys.foldl Options.step ([], s.generatedOptions)
  (.DictExpr st.1, { s with generatedOptions := st.2 })

/-- The map after the stored slices of the keys in `done` have been sorted. -/
def Options.sortedAt (done : List String) (m : GoMap (List String)) : GoMap (List String) :=
  m.map (fun kv => (kv.1, if kv.1 ∈ done then sort_Strings kv.2 else kv.2))

/-- The dict entry that `Options` emits for `key`, from the map before the call. -/
def Options.item (m : GoMap (List String)) (key : String) : build.Expr × build.Expr :=
  build.KeyValueExpr key (strings_Join (sort_Strings ((GoMap.get? m key).getD [])) ",")

/-- Rule implements part of the ruleProvider interface.  The second component
is the rule provider after the call. -/
def Rule (str : Label → String) (s : ProtoCompileRule) : rule.Rule × ProtoCompileRule :=
  let newRule := rule.NewRule s.Kind s.Name
  let newRule :=
    if s.visibility.length > 0 then newRule.SetAttr "visibility" (rule.ExprFromStrings s.Visibility)
    else newRule
  let newRule := s.comment.foldl rule.Rule.AddComment newRule
  let newRule := newRule.SetAttr "proto" (rule.ExprFromString s.library.Name)
  let newRule := newRule.SetAttr "plugins" (rule.ExprFromStrings (s.pluginLabels str))
  let newRule := newRule.SetAttr "generated_srcs" (rule.ExprFromStrings s.GeneratedSrcs)
  if GoMap.len s.generatedOptions > 0 then
    let r := s.Options
    (newRule.SetAttr "options" r.1, r.2)
  else
    (newRule, s)

/-- The rule that `Rule` has built when it reaches the test on the options. -/
def Rule.base (str : label.Label → String) (s : ProtoCompileRule) : rule.Rule :=
  let newRule := rule.NewRule s.Kind s.Name
  let newRule :=
    if s.visibility.length > 0 then newRule.SetAttr "visibility" (rule.ExprFromStrings s.Visibility)
    else newRule
  let newRule := s.comment.foldl rule.Rule.AddComment newRule
  let newRule := newRule.SetAttr "proto" (rule.ExprFromString s.library.Name)
  let newRule := newRule.SetAttr "plugins" (rule.ExprFromStrings (s.pluginLabels str))
  newRule.SetAttr "generated_srcs" (rule.ExprFromStrings s.GeneratedSrcs)

end ProtoCompileRule

/-! ## proto_file.go -/

/-- ProtoFile represents a proto file we discover in a package. -/
structure ProtoFile where
  Dir : String
  Basename : String
  Name : String
  protoPackage : Option proto.Package
  imports : List proto.Import
  services : List proto.Service
  messages : List proto.Message
  options : List proto.Option
  enums : List proto.Enum
  enumOptions : List proto.Option
  deriving DecidableEq

/-- NewProtoFile takes the package directory and base name of the file (e.g.
'foo.proto') and constructs ProtoFile; the other fields keep their zero value. -/
def NewProtoFile (dir basename : String) : ProtoFile :=
  { Dir := dir, Basename := basename,
    Name := strings_TrimSuffix basename (filepath_Ext basename),
    protoPackage := none, imports := [], services := [], messages := [], options := [],
    enums := [], enumOptions := [] }

namespace ProtoFile

/-- The handler of the package declaration. -/
def handlePackage (f : ProtoFile) (p : proto.Package) : ProtoFile :=
  { f with protoPackage := some p }

/-- The handler of an option. -/
def handleOption (f : ProtoFile) (o : proto.Option) : ProtoFile :=
  { f with options := f.options ++ [o] }

/-- The handler of an import. -/
def handleImport (f : ProtoFile) (i : proto.Import) : ProtoFile :=
  { f with imports := f.imports ++ [i] }

/-- The handler of an enum. -/
def handleEnum (f : ProtoFile) (i : proto.Enum) : ProtoFile :=
  { f with enums := f.enums ++ [i] }

/-- The handler of a service. -/
def handleService (f : ProtoFile) (s : proto.Service) : ProtoFile :=
  { f with services := f.services ++ [s] }

/-- The handler of a message. -/
def handleMessage (f : ProtoFile) (m : proto.Message) : ProtoFile :=
  { f with messages := f.messages ++ [m] }

/-- The method `parseReader`.  `Parse` is the grammar parser run on the content
of the reader (`proto.NewParser(in).Parse()`), `VisitEnum` is the step of the
`protoEnumOptionCollector` on the options it has collected so far.  The result
is the error returned (`none` for `nil`) and the file after the call. -/
def parseReader (Parse : String → Except GoError (List proto.Visitee))
    (VisitEnum : List proto.Option → proto.Enum → List proto.Option)
    (f : ProtoFile) (input : String) : Option GoError × ProtoFile :=
  match Parse input with
  | .error err =>
    (some (.wrapError
      ("could not parse " ++ f.Dir ++ "/" ++ f.Basename ++ ": " ++ err.Error) err), f)
  | .ok definition =>
    let f := proto.Walk
      [proto.WithPackage handlePackage,
       proto.WithOption handleOption,
       proto.WithImport handleImport,
       proto.WithService handleService,
       proto.WithMessage handleMessage,
       proto.WithEnum handleEnum] f definition
    let collector := f.enums.foldl VisitEnum []
    (none, { f with enumOptions := collector })

end ProtoFile

/-- The function getGoPackageOption is a utility function to seek for the
go_package option and split it.  The result is the importpath, the alias and
whether the option was found. -/
def getGoPackageOption : List proto.Option → String × String × Bool
  | [] => ("", "", false)
  | opt :: options =>
    if opt.Name ≠ "go_package" then getGoPackageOption options
    else
      match strings_SplitN opt.Constant.Source ';' 2 with
      | [] => ("", "", true)
      | [p0] => (p0, "", true)
      | [p0, p1] => (p0, p1, true)
      | p0 :: rest => (p0, strings_Join rest ";", true)

/-- The body of the loop of `matchingFiles`. -/
def matchingFiles.step (files : GoMap ProtoFile) (matching : List ProtoFile) (src : Label) :
    List ProtoFile :=
  match GoMap.get? files src.Name with
  | some file => matching ++ [file]
  | none => matching

/-- matchingFiles collects the known files that the labels name. -/
def matchingFiles (files : GoMap ProtoFile) (srcs : List Label) : List ProtoFile :=
  srcs.foldl (matchingFiles.step files) []

end Protoc

/-! ## tools/laze/gazelle.go -/

/-- Gazelle's `rule.KindInfo`, by the two attribute sets the package fills in. -/
structure rule.KindInfo where
  NonEmptyAttrs : Protoc.GoMap Bool
  MergeableAttrs : Protoc.GoMap Bool

/-- Gazelle's `rule.File`, by the rules of the build file. -/
structure rule.File where
  Rules : List rule.Rule

/-- Gazelle's `language.GenerateArgs`, by the one field that is read: `File` is
`nil` when the directory has no build file. -/
structure language.GenerateArgs where
  File : Option rule.File

/-- Gazelle's `language.GenerateResult`; every import is a `[]string`. -/
structure language.GenerateResult where
  Gen : List rule.Rule
  Imports : List (List String)

namespace Laze

/-- The constant `languageName`. -/
def languageName : String := "rules_proto"

/-- The table `kinds`. -/
def kinds : Protoc.GoMap rule.KindInfo :=
  [("proto_plugin_info_provider_test",
      { NonEmptyAttrs := [("srcs", true), ("deps", true)], MergeableAttrs := [("srcs", true)] }),
   ("proto_rule_info_provider_test",
      { NonEmptyAttrs := [("srcs", true), ("deps", true)], MergeableAttrs := [("srcs", true)] }),
   ("proto_rule_test",
      { NonEmptyAttrs := [("srcs", true), ("deps", true)], MergeableAttrs := [("srcs", true)] })]

namespace protoRuleLang

/-- Name returns the name of the language. -/
def Name : String := languageName

/-- Kinds returns a map of maps rule names (kinds) and information on how to
match and merge attributes that may be found in rules of those kinds. -/
def Kinds : Protoc.GoMap rule.KindInfo := kinds

/-- The body of the loop of `GenerateRules`, on the rules and imports so far. -/
def GenerateRules.step (st : List rule.Rule × List (List String)) (existingRule : rule.Rule) :
    List rule.Rule × List (List String) :=
  if existingRule.Kind = "proto_plugin" then
    let providerTestName := existingRule.Name ++ "_info_provider_test"
    let r := rule.NewRule "proto_plugin_info_provider_test" providerTestName
    let r := r.SetAttr "srcs" (rule.ExprFromStrings [providerTestName ++ ".golden.1.prototext"])
    let r := r.SetAttr "deps" (rule.ExprFromStrings [":" ++ existingRule.Name])
    (st.1 ++ [r], st.2 ++ [["proto_plugin_info_provider_test"]])
  else if existingRule.Kind = "proto_rule" then
    let providerTestName := existingRule.Name ++ "_info_provider_test"
    let r := rule.NewRule "proto_rule_info_provider_test" providerTestName
    let r := r.SetAttr "srcs" (rule.ExprFromStrings [providerTestName ++ ".golden.1.prototext"])
    let r := r.SetAttr "deps" (rule.ExprFromStrings [":" ++ existingRule.Name])
    let rules := st.1 ++ [r]
    let imports := st.2 ++ [["proto_rule_info_provider_test"]]
    let ruleTestName := existingRule.Name ++ "_test"
    let r := rule.NewRule "proto_rule_test" ruleTestName
    let r := r.SetAttr "srcs"
      (rule.ExprFromStrings [existingRule.Name ++ ".bzl", existingRule.Name ++ "_deps.bzl"])
    let r := r.SetAttr "deps" (rule.ExprFromStrings [":" ++ existingRule.Name])
    (rules ++ [r], imports ++ [["proto_rule_test"]])
  else st

/-- GenerateRules extracts build metadata from source files in a directory.
The result is `none` when `args.File` is `nil`, which the code dereferences. -/
def GenerateRules (args : language.GenerateArgs) : Option language.GenerateResult :=
  match args.File with
  | none => none
  | some file =>
    let st := file.Rules.foldl GenerateRules.step ([], [])
    some { Gen := st.1, Imports := st.2 }

/-- The rules that one existing rule adds to the result. -/
def GenerateRules.out (existingRule : rule.Rule) : List rule.Rule :=
  (GenerateRules.step ([], []) existingRule).1

end protoRuleLang

end Laze

/-! # Properties -/

namespace Protoc

/-! ## The order of strings and `sort.Strings` -/

theorem data_le_iff (a b : String) : a.data ≤ b.data ↔ a ≤ b :=
  String.le_iff_toList_le.symm

instance : IsTotal String (fun a b => a.data ≤ b.data) :=
  ⟨fun a b => by simp only [data_le_iff]; exact le_total a b⟩

instance : IsTrans String (fun a b => a.data ≤ b.data) :=
  ⟨fun a b c => by simp only [data_le_iff]; exact le_trans⟩

theorem sort_Strings_perm (xs : List String) : (sort_Strings xs).Perm xs :=
  List.perm_insertionSort _ xs

theorem sort_Strings_sorted (xs : List String) : (sort_Strings xs).Sorted (· ≤ ·) := by
  have h := List.sorted_insertionSort (fun a b : String => a.data ≤ b.data) xs
  exact List.Pairwise.imp (fun {a b} hab => (data_le_iff a b).1 hab) h

theorem sort_Strings_eq_of_perm {xs ys : List String} (h : xs.Perm ys) :
    sort_Strings xs = sort_Strings ys :=
  List.eq_of_perm_of_sorted (((sort_Strings_perm xs).trans h).trans (sort_Strings_perm ys).symm)
    (sort_Strings_sorted xs) (sort_Strings_sorted ys)

theorem sort_Strings_of_sorted {xs : List String} (h : xs.Sorted (· ≤ ·)) :
    sort_Strings xs = xs :=
  List.eq_of_perm_of_sorted (sort_Strings_perm xs) (sort_Strings_sorted xs) h

theorem sort_Strings_idem (xs : List String) :
    sort_Strings (sort_Strings xs) = sort_Strings xs :=
  sort_Strings_of_sorted (sort_Strings_sorted xs)

theorem sort_Strings_strict {xs : List String} (h : xs.Nodup) :
    (sort_Strings xs).Sorted (· < ·) := by
  have hs := sort_Strings_sorted xs
  have hn : (sort_Strings xs).Nodup := (sort_Strings_perm xs).nodup_iff.2 h
  exact (List.Pairwise.and hs hn).imp (fun {a b} hab => lt_of_le_of_ne hab.1 hab.2)

/-! ## `strings.Join` -/

theorem strings_Join_loop_data (sep : String) (b : String) (rest : List String) :
    (strings_Join.loop sep b rest).data
      = b.data ++ (rest.map (fun s => sep.data ++ s.data)).flatten := by
  induction rest generalizing b with
  | nil => simp [strings_Join.loop]
  | cons s rest ih => simp [strings_Join.loop, ih, List.append_assoc]

theorem intersperse_data_flatten (sep e : String) (rest : List String) :
    (((e :: rest).intersperse sep).map String.data).flatten
      = e.data ++ (rest.map (fun s => sep.data ++ s.data)).flatten := by
  induction rest generalizing e with
  | nil => simp
  | cons s rest ih =>
    rw [List.intersperse_cons₂, List.map_cons, List.map_cons, List.flatten_cons,
      List.flatten_cons, ih]
    simp [List.append_assoc]

/-- The result of `strings.Join` is the concatenation of the elements with one `sep` between
every two neighbours. -/
theorem strings_Join_eq (elems : List String) (sep : String) :
    strings_Join elems sep = String.join (elems.intersperse sep) := by
  apply String.ext
  rw [String.data_join]
  match elems with
  | [] => simp [strings_Join]
  | [e] => simp [strings_Join]
  | e :: s :: rest =>
    rw [intersperse_data_flatten]
    simp only [strings_Join]
    rw [strings_Join_loop_data]

/-! ## Go maps -/

namespace GoMap

theorem get?_set {V : Type} (m : GoMap V) (key : String) (v : V) (k : String) :
    get? (set m key v) k = if key = k then some v else get? m k := by
  induction m with
  | nil => simp [set, get?]
  | cons e rest ih =>
    obtain ⟨k', w⟩ := e
    by_cases h : k' = key
    · subst h
      by_cases hk : k' = k <;> simp [set, get?, hk]
    · by_cases hk : k' = k
      · subst hk
        simp [set, get?, h, Ne.symm h]
      · simp [set, get?, h, hk, ih]

theorem keys_set {V : Type} (m : GoMap V) (key : String) (v : V) :
    keys (set m key v) = if key ∈ keys m then keys m else keys m ++ [key] := by
  induction m with
  | nil => simp [set, keys]
  | cons e rest ih =>
    obtain ⟨k', w⟩ := e
    by_cases h : k' = key
    · subst h; simp [set, keys]
    · have ih' : List.map Prod.fst (set rest key v)
          = if key ∈ List.map Prod.fst rest then List.map Prod.fst rest
            else List.map Prod.fst rest ++ [key] := ih
      simp only [set, keys, h, if_false, List.map_cons, List.mem_cons, Ne.symm h, false_or]
      rw [ih']
      split <;> simp

theorem WF_set {V : Type} {m : GoMap V} (h : WF m) (key : String) (v : V) :
    WF (set m key v) := by
  unfold WF at *
  rw [keys_set]
  split
  · exact h
  · rename_i hk
    exact List.Nodup.append h (List.nodup_singleton key) (by simpa using hk)

theorem get?_isSome_iff {V : Type} (m : GoMap V) (k : String) :
    (get? m k).isSome ↔ k ∈ keys m := by
  induction m with
  | nil => simp [get?, keys]
  | cons e rest ih =>
    obtain ⟨k', w⟩ := e
    by_cases h : k' = k
    · simp [get?, keys, h]
    · have ih' : (get? rest k).isSome = true ↔ k ∈ List.map Prod.fst rest := ih
      simp [get?, keys, h, Ne.symm h, ih']

theorem get?_eq_none_iff {V : Type} (m : GoMap V) (k : String) :
    get? m k = none ↔ k ∉ keys m := by
  rw [← get?_isSome_iff]
  cases get? m k <;> simp

theorem get?_map_val {V W : Type} (f : String → V → W) (m : GoMap V) (k : String) :
    get? (m.map (fun kv => (kv.1, f kv.1 kv.2))) k = (get? m k).map (f k) := by
  induction m with
  | nil => simp [get?]
  | cons e rest ih =>
    obtain ⟨k', w⟩ := e
    by_cases h : k' = k
    · subst h; simp [get?]
    · simp [get?, h, ih]

theorem mem_of_get? {V : Type} {m : GoMap V} {k : String} {v : V} (h : get? m k = some v) :
    (k, v) ∈ m := by
  induction m with
  | nil => simp [get?] at h
  | cons e rest ih =>
    obtain ⟨k', w⟩ := e
    by_cases hk : k' = k
    · subst hk
      simp [get?] at h
      simp [h]
    · simp [get?, hk] at h
      exact List.mem_cons_of_mem _ (ih h)

theorem get?_of_mem {V : Type} {m : GoMap V} (hm : WF m) {k : String} {v : V}
    (h : (k, v) ∈ m) : get? m k = some v := by
  induction m with
  | nil => simp at h
  | cons e rest ih =>
    obtain ⟨k', w⟩ := e
    have hnd : k' ∉ keys rest ∧ WF rest := by
      simpa [WF, keys] using hm
    rcases List.mem_cons.1 h with h | h
    · cases h
      simp [get?]
    · have hk : k ∈ keys rest := List.mem_map_of_mem Prod.fst h
      have hne : k' ≠ k := fun e => hnd.1 (e ▸ hk)
      simp [get?, hne, ih hnd.2 h]

/-- Two well-formed maps with the same lookups enumerate the same keys, up to order. -/
theorem keys_perm_of_get?_eq {V : Type} {m₁ m₂ : GoMap V} (h₁ : WF m₁) (h₂ : WF m₂)
    (h : ∀ k, get? m₁ k = get? m₂ k) : (keys m₁).Perm (keys m₂) := by
  rw [List.perm_ext_iff_of_nodup h₁ h₂]
  intro k
  rw [← get?_isSome_iff, ← get?_isSome_iff, h k]

end GoMap

/-! ## `ProtoCompileRule.Options` -/

namespace ProtoCompileRule

theorem Options.keys_foldl (m : GoMap (List String)) (acc : List String) :
    m.foldl (fun keys kv => keys ++ [kv.1]) acc = acc ++ GoMap.keys m := by
  induction m generalizing acc with
  | nil => simp [GoMap.keys]
  | cons e rest ih => simp [ih, GoMap.keys]

theorem Options.keys_eq (m : GoMap (List String)) : Options.keys m = GoMap.keys m := by
  simp [Options.keys, Options.keys_foldl]

theorem Options.sortedAt_nil (m : GoMap (List String)) : Options.sortedAt [] m = m := by
  simp [Options.sortedAt]

theorem Options.sortStored_sortedAt (done : List String) (m : GoMap (List String))
    (key : String) :
    Options.sortStored (Options.sortedAt done m) key = Options.sortedAt (done ++ [key]) m := by
  simp only [Options.sortStored, Options.sortedAt, List.map_map]
  apply List.map_congr_left
  intro kv _
  by_cases hk : kv.1 = key
  · have hd' : (kv.1 ∈ done) = (key ∈ done) := by rw [hk]
    by_cases hd : key ∈ done
    · simp [hk, hd, sort_Strings_idem]
    · simp [hk, hd]
  · by_cases hd : kv.1 ∈ done <;> simp [hk, hd]

theorem Options.get?_sortedAt (done : List String) (m : GoMap (List String)) (k : String) :
    GoMap.get? (Options.sortedAt done m) k
      = (GoMap.get? m k).map (fun v => if k ∈ done then sort_Strings v else v) :=
  GoMap.get?_map_val (fun k v => if k ∈ done then sort_Strings v else v) m k

theorem Options.sort_get?_sortedAt (done : List String) (m : GoMap (List String))
    (k : String) :
    sort_Strings ((GoMap.get? (Options.sortedAt done m) k).getD [])
      = sort_Strings ((GoMap.get? m k).getD []) := by
  rw [Options.get?_sortedAt]
  cases GoMap.get? m k with
  | none => rfl
  | some v =>
    by_cases hd : k ∈ done
    · simp [hd, sort_Strings_idem]
    · simp [hd]

theorem Options.foldl_step (m : GoMap (List String)) (ks done : List String)
    (items : List (build.Expr × build.Expr)) :
    ks.foldl Options.step (items, Options.sortedAt done m)
      = (items ++ ks.map (Options.item m), Options.sortedAt (done ++ ks) m) := by
  induction ks generalizing done items with
  | nil => simp
  | cons k ks ih =>
    rw [List.foldl_cons]
    have hstep : Options.step (items, Options.sortedAt done m) k
        = (items ++ [Options.item m k], Options.sortedAt (done ++ [k]) m) := by
      simp only [Options.step, Options.item, Options.sort_get?_sortedAt,
        Options.sortStored_sortedAt]
    rw [hstep, ih]
    simp [List.append_assoc]

/-- The dict that `Options` returns: one entry for each key, in sorted key order. -/
theorem Options_fst (s : ProtoCompileRule) :
    (Options s).1
      = .DictExpr ((sort_Strings (GoMap.keys s.generatedOptions)).map
          (Options.item s.generatedOptions)) := by
  have h := Options.foldl_step s.generatedOptions
    (sort_Strings (GoMap.keys s.generatedOptions)) [] []
  rw [Options.sortedAt_nil] at h
  simp [Options, Options.keys_eq, h]

/-- The rule after `Options`: every stored option list has been sorted. -/
theorem Options_snd (s : ProtoCompileRule) :
    (Options s).2
      = { s with generatedOptions :=
            s.generatedOptions.map (fun kv => (kv.1, sort_Strings kv.2)) } := by
  have h := Options.foldl_step s.generatedOptions
    (sort_Strings (GoMap.keys s.generatedOptions)) [] []
  rw [Options.sortedAt_nil] at h
  simp only [Options, Options.keys_eq, h, List.nil_append]
  congr 1
  simp only [Options.sortedAt]
  apply List.map_congr_left
  intro kv hkv
  have : kv.1 ∈ sort_Strings (GoMap.keys s.generatedOptions) :=
    (sort_Strings_perm _).mem_iff.2 (List.mem_map_of_mem Prod.fst hkv)
  simp [this]

end ProtoCompileRule

/-! ## Claims on `Options` -/

/-- C1. For every options-by-plugin map, `Options` returns a dict of string
pairs with exactly one entry per key of the map, the entries stand in strictly
ascending order of plugin name, and the value of each entry is the plugin's
option strings, sorted ascending, concatenated with one `,` between neighbours. -/
theorem Options_sorted_dict (s : ProtoCompileRule) (hwf : GoMap.WF s.generatedOptions) :
    ∃ items : List (String × String),
      (ProtoCompileRule.Options s).1
        = .DictExpr (items.map (fun kv => build.KeyValueExpr kv.1 kv.2)) ∧
      (items.map Prod.fst).Perm (GoMap.keys s.generatedOptions) ∧
      (items.map Prod.fst).Sorted (· < ·) ∧
      ∀ kv ∈ items, ∃ opts sorted : List String,
        GoMap.get? s.generatedOptions kv.1 = some opts ∧
        sorted.Perm opts ∧ sorted.Sorted (· ≤ ·) ∧
        kv.2 = String.join (sorted.intersperse ",") := by
  let val : String → String := fun k =>
    strings_Join (sort_Strings ((GoMap.get? s.generatedOptions k).getD [])) ","
  refine ⟨(sort_Strings (GoMap.keys s.generatedOptions)).map (fun k => (k, val k)),
    ?_, ?_, ?_, ?_⟩
  · rw [ProtoCompileRule.Options_fst, List.map_map]
    rfl
  · rw [List.map_map]
    simpa [Function.comp_def] using sort_Strings_perm (GoMap.keys s.generatedOptions)
  · rw [List.map_map]
    simpa [Function.comp_def] using sort_Strings_strict hwf
  · intro kv hkv
    obtain ⟨k, hk, rfl⟩ := List.mem_map.1 hkv
    have hk' : k ∈ GoMap.keys s.generatedOptions := (sort_Strings_perm _).mem_iff.1 hk
    obtain ⟨opts, hopts⟩ := Option.isSome_iff_exists.1
      ((GoMap.get?_isSome_iff s.generatedOptions k).2 hk')
    refine ⟨opts, sort_Strings opts, hopts, sort_Strings_perm opts,
      sort_Strings_sorted opts, ?_⟩
    simp only [val, hopts, Option.getD_some]
    exact strings_Join_eq _ _

theorem Options_sorted_dict_witness :
    GoMap.WF [("go", ["plugins=grpc", "paths=source_relative"]), ("cpp", ["speed"])] ∧
    ∃ items : List (String × String),
      (ProtoCompileRule.Options (NewProtoCompileRule "go" ⟨"foo", "foo_proto"⟩ [] []
          [("go", ["plugins=grpc", "paths=source_relative"]), ("cpp", ["speed"])])).1
        = .DictExpr (items.map (fun kv => build.KeyValueExpr kv.1 kv.2)) ∧
      (items.map Prod.fst).Perm (GoMap.keys
        [("go", ["plugins=grpc", "paths=source_relative"]), ("cpp", ["speed"])]) ∧
      (items.map Prod.fst).Sorted (· < ·) ∧
      ∀ kv ∈ items, ∃ opts sorted : List String,
        GoMap.get? [("go", ["plugins=grpc", "paths=source_relative"]), ("cpp", ["speed"])] kv.1
          = some opts ∧
        sorted.Perm opts ∧ sorted.Sorted (· ≤ ·) ∧
        kv.2 = String.join (sorted.intersperse ",") :=
  ⟨by decide,
   Options_sorted_dict (NewProtoCompileRule "go" ⟨"foo", "foo_proto"⟩ [] []
     [("go", ["plugins=grpc", "paths=source_relative"]), ("cpp", ["speed"])]) (by decide)⟩

/-- C2. Determinism of `Options`: two rules whose options-by-plugin maps have
the same logical content (the same lookups at every name), whatever the order
in which each map enumerates its keys, return identical dicts. -/
theorem Options_deterministic (s₁ s₂ : ProtoCompileRule)
    (h₁ : GoMap.WF s₁.generatedOptions) (h₂ : GoMap.WF s₂.generatedOptions)
    (h : ∀ k, GoMap.get? s₁.generatedOptions k = GoMap.get? s₂.generatedOptions k) :
    (ProtoCompileRule.Options s₁).1 = (ProtoCompileRule.Options s₂).1 := by
  rw [ProtoCompileRule.Options_fst, ProtoCompileRule.Options_fst,
    sort_Strings_eq_of_perm (GoMap.keys_perm_of_get?_eq h₁ h₂ h)]
  congr 1
  apply List.map_congr_left
  intro k _
  simp only [ProtoCompileRule.Options.item, h k]

theorem Options_deterministic_witness :
    GoMap.WF [("go", ["plugins=grpc", "paths=source_relative"]), ("cpp", ["speed"])] ∧
    GoMap.WF [("cpp", ["speed"]), ("go", ["plugins=grpc", "paths=source_relative"])] ∧
    (ProtoCompileRule.Options (NewProtoCompileRule "go" ⟨"foo", "foo_proto"⟩ [] []
        [("go", ["plugins=grpc", "paths=source_relative"]), ("cpp", ["speed"])])).1
      = (ProtoCompileRule.Options (NewProtoCompileRule "go" ⟨"foo", "foo_proto"⟩ [] []
        [("cpp", ["speed"]), ("go", ["plugins=grpc", "paths=source_relative"])])).1 :=
  ⟨by decide, by decide,
   Options_deterministic
     (NewProtoCompileRule "go" ⟨"foo", "foo_proto"⟩ [] []
        [("go", ["plugins=grpc", "paths=source_relative"]), ("cpp", ["speed"])])
     (NewProtoCompileRule "go" ⟨"foo", "foo_proto"⟩ [] []
        [("cpp", ["speed"]), ("go", ["plugins=grpc", "paths=source_relative"])])
     (by decide) (by decide)
     (by
       intro k
       simp only [NewProtoCompileRule, GoMap.get?]
       split_ifs with hgo hcpp
       · exact absurd (hgo.trans hcpp.symm) (by decide)
       all_goals rfl)⟩

/-- C3, as stated, fails: `Options` (and `Rule`, which calls it) sorts the option
lists stored in the caller's map in place.  After the call the list stored under
`go` is no longer what it was. -/
theorem Options_mutates_map :
    GoMap.WF [("go", ["plugins=grpc", "paths=source_relative"])] ∧
    GoMap.get? [("go", ["plugins=grpc", "paths=source_relative"])] "go"
      = some ["plugins=grpc", "paths=source_relative"] ∧
    GoMap.get? (ProtoCompileRule.Options (NewProtoCompileRule "go" ⟨"foo", "foo_proto"⟩ [] []
        [("go", ["plugins=grpc", "paths=source_relative"])])).2.generatedOptions "go"
      = some ["paths=source_relative", "plugins=grpc"] ∧
    GoMap.get? (ProtoCompileRule.Rule (fun l => l.Name)
        (NewProtoCompileRule "go" ⟨"foo", "foo_proto"⟩ [] []
          [("go", ["plugins=grpc", "paths=source_relative"])])).2.generatedOptions "go"
      = some ["paths=source_relative", "plugins=grpc"] ∧
    ¬ (∀ (s : ProtoCompileRule) (k : String),
        GoMap.get? (ProtoCompileRule.Options s).2.generatedOptions k
          = GoMap.get? s.generatedOptions k) := by
  refine ⟨by decide, rfl, rfl, rfl, ?_⟩
  intro h
  have h' := h (NewProtoCompileRule "go" ⟨"foo", "foo_proto"⟩ [] []
    [("go", ["plugins=grpc", "paths=source_relative"])]) "go"
  have e : GoMap.get? (ProtoCompileRule.Options (NewProtoCompileRule "go" ⟨"foo", "foo_proto"⟩
      [] [] [("go", ["plugins=grpc", "paths=source_relative"])])).2.generatedOptions "go"
        = some ["paths=source_relative", "plugins=grpc"] := rfl
  rw [e] at h'
  exact absurd h' (by decide)

/-- C3, amended.  `Options` changes nothing of the rule but the option lists
stored in the map, keeps the keys of the map and their order of enumeration, and
leaves under each key the ascending sort of the list that was there: a
permutation of it, equal to it when it was already sorted.  `Rule` leaves the
rule as it was when the map is empty and has the effect of `Options` otherwise. -/
theorem Options_frame (str : label.Label → String) (s : ProtoCompileRule) :
    (ProtoCompileRule.Options s).2
      = { s with generatedOptions := (ProtoCompileRule.Options s).2.generatedOptions } ∧
    GoMap.keys (ProtoCompileRule.Options s).2.generatedOptions = GoMap.keys s.generatedOptions ∧
    (∀ k, GoMap.get? (ProtoCompileRule.Options s).2.generatedOptions k = none ↔
      GoMap.get? s.generatedOptions k = none) ∧
    (∀ k opts, GoMap.get? s.generatedOptions k = some opts →
      ∃ opts', GoMap.get? (ProtoCompileRule.Options s).2.generatedOptions k = some opts' ∧
        opts'.Perm opts ∧ opts'.Sorted (· ≤ ·) ∧ (opts.Sorted (· ≤ ·) → opts' = opts)) ∧
    ((ProtoCompileRule.Rule str s).2 = if GoMap.len s.generatedOptions = 0 then s
      else (ProtoCompileRule.Options s).2) := by
  have hget : ∀ k, GoMap.get? (ProtoCompileRule.Options s).2.generatedOptions k
      = (GoMap.get? s.generatedOptions k).map sort_Strings := by
    intro k
    rw [ProtoCompileRule.Options_snd]
    exact GoMap.get?_map_val (fun _ v => sort_Strings v) s.generatedOptions k
  refine ⟨?_, ?_, ?_, ?_, ?_⟩
  · rw [ProtoCompileRule.Options_snd]
  · rw [ProtoCompileRule.Options_snd]
    simp [GoMap.keys, Function.comp_def]
  · intro k
    rw [hget k]
    cases GoMap.get? s.generatedOptions k <;> simp
  · intro k opts hk
    refine ⟨sort_Strings opts, ?_, sort_Strings_perm opts, sort_Strings_sorted opts,
      fun h => sort_Strings_of_sorted h⟩
    rw [hget k, hk]
    rfl
  · unfold ProtoCompileRule.Rule
    by_cases h0 : GoMap.len s.generatedOptions = 0
    · simp [h0]
    · have hpos : GoMap.len s.generatedOptions > 0 := Nat.pos_of_ne_zero h0
      simp [h0, hpos]

/-! ## `ProtoCompileRule.Rule` -/

theorem Attr_SetAttr (r : rule.Rule) (key : String) (v : build.Expr) (k : String) :
    (r.SetAttr key v).Attr k = if key = k then some v else r.Attr k :=
  GoMap.get?_set r.attrs key v k

theorem attrs_foldl_AddComment (lines : List String) (r : rule.Rule) :
    (lines.foldl rule.Rule.AddComment r).attrs = r.attrs := by
  induction lines generalizing r with
  | nil => rfl
  | cons l lines ih => rw [List.foldl_cons, ih]; rfl

theorem Attr_foldl_AddComment (lines : List String) (r : rule.Rule) (k : String) :
    (lines.foldl rule.Rule.AddComment r).Attr k = r.Attr k := by
  simp only [rule.Rule.Attr, attrs_foldl_AddComment]

theorem kind_foldl_AddComment (lines : List String) (r : rule.Rule) :
    (lines.foldl rule.Rule.AddComment r).kind = r.kind := by
  induction lines generalizing r with
  | nil => rfl
  | cons l lines ih => rw [List.foldl_cons, ih]; rfl

theorem Rule_fst (str : label.Label → String) (s : ProtoCompileRule) :
    (ProtoCompileRule.Rule str s).1
      = if GoMap.len s.generatedOptions > 0 then
          (ProtoCompileRule.Rule.base str s).SetAttr "options" (ProtoCompileRule.Options s).1
        else ProtoCompileRule.Rule.base str s := by
  unfold ProtoCompileRule.Rule ProtoCompileRule.Rule.base
  by_cases h : GoMap.len s.generatedOptions > 0 <;> simp [h]

theorem Attr_base (str : label.Label → String) (s : ProtoCompileRule) (k : String) :
    (ProtoCompileRule.Rule.base str s).Attr k
      = if "generated_srcs" = k then some (rule.ExprFromStrings s.generatedSrcs)
        else if "plugins" = k then some (rule.ExprFromStrings (s.plugins.map str))
        else if "proto" = k then some (rule.ExprFromString s.library.Name)
        else if "visibility" = k ∧ s.visibility.length > 0 then
          some (rule.ExprFromStrings s.visibility)
        else if "name" = k then some (.StringExpr s.Name)
        else none := by
  unfold ProtoCompileRule.Rule.base
  simp only [Attr_SetAttr, Attr_foldl_AddComment]
  by_cases hv : s.visibility.length > 0
  · simp only [hv, if_true, Attr_SetAttr, and_true]
    rfl
  · simp only [hv, if_false, and_false]
    rfl

theorem GetPluginOptions_foldl_empty (plugins : List PluginConfiguration)
    (h : ∀ p ∈ plugins, p.Options = []) (m : GoMap (List String)) :
    plugins.foldl GetPluginOptions.step m = m := by
  induction plugins generalizing m with
  | nil => rfl
  | cons p ps ih =>
    have hp : p.Options = [] := h p (List.mem_cons_self p ps)
    rw [List.foldl_cons]
    have hs : GetPluginOptions.step m p = m := by simp [GetPluginOptions.step, hp]
    rw [hs]
    exact ih (fun q hq => h q (List.mem_cons_of_mem p hq)) m

/-- C4. Omission: when the options-by-plugin map is empty, the rule that `Rule`
returns has no `options` attribute at all, and it has the `proto`, `plugins`
and `generated_srcs` attributes. -/
theorem Rule_omits_options (str : label.Label → String) (s : ProtoCompileRule)
    (h : GoMap.len s.generatedOptions = 0) :
    (ProtoCompileRule.Rule str s).1.Attr "options" = none ∧
    (ProtoCompileRule.Rule str s).1.Attr "proto" = some (.StringExpr s.library.Name) ∧
    (ProtoCompileRule.Rule str s).1.Attr "plugins"
      = some (.ListExpr ((s.plugins.map str).map .StringExpr)) ∧
    (ProtoCompileRule.Rule str s).1.Attr "generated_srcs"
      = some (.ListExpr (s.generatedSrcs.map .StringExpr)) := by
  have hr : (ProtoCompileRule.Rule str s).1 = ProtoCompileRule.Rule.base str s := by
    rw [Rule_fst]; simp [h]
  rw [hr]
  refine ⟨?_, ?_, ?_, ?_⟩
  · rw [Attr_base]
    simp +decide
  · rw [Attr_base]
    simp +decide [rule.ExprFromString]
  · rw [Attr_base]
    simp +decide [rule.ExprFromStrings]
  · rw [Attr_base]
    simp [rule.ExprFromStrings]

theorem Rule_omits_options_witness :
    GoMap.len (NewProtoCompileRule "go" ⟨"foo", "foo_proto"⟩ [⟨"", "", "go", true⟩]
      ["foo.pb.go", "foo_grpc.pb.go"] []).generatedOptions = 0 ∧
    (ProtoCompileRule.Rule (fun l => ":" ++ l.Name)
      (NewProtoCompileRule "go" ⟨"foo", "foo_proto"⟩ [⟨"", "", "go", true⟩]
        ["foo.pb.go", "foo_grpc.pb.go"] [])).1.Attr "options" = none ∧
    (ProtoCompileRule.Rule (fun l => ":" ++ l.Name)
      (NewProtoCompileRule "go" ⟨"foo", "foo_proto"⟩ [⟨"", "", "go", true⟩]
        ["foo.pb.go", "foo_grpc.pb.go"] [])).1.Attr "proto" = some (.StringExpr "foo_proto") ∧
    (ProtoCompileRule.Rule (fun l => ":" ++ l.Name)
      (NewProtoCompileRule "go" ⟨"foo", "foo_proto"⟩ [⟨"", "", "go", true⟩]
        ["foo.pb.go", "foo_grpc.pb.go"] [])).1.Attr "plugins"
      = some (.ListExpr [.StringExpr ":go"]) ∧
    (ProtoCompileRule.Rule (fun l => ":" ++ l.Name)
      (NewProtoCompileRule "go" ⟨"foo", "foo_proto"⟩ [⟨"", "", "go", true⟩]
        ["foo.pb.go", "foo_grpc.pb.go"] [])).1.Attr "generated_srcs"
      = some (.ListExpr [.StringExpr "foo.pb.go", .StringExpr "foo_grpc.pb.go"]) :=
  ⟨rfl, Rule_omits_options (fun l => ":" ++ l.Name)
    (NewProtoCompileRule "go" ⟨"foo", "foo_proto"⟩ [⟨"", "", "go", true⟩]
      ["foo.pb.go", "foo_grpc.pb.go"] []) rfl⟩

/-- C5, as stated, fails: a map that holds the key `cpp` with an empty option
list has one key, so `Rule` emits an `options` attribute, the dict that maps
`cpp` to the empty string, although no plugin declares any option. -/
theorem Rule_emits_options_for_empty_list :
    GoMap.WF [("cpp", ([] : List String))] ∧
    (∀ kv ∈ [("cpp", ([] : List String))], kv.2 = []) ∧
    (ProtoCompileRule.Rule (fun l => ":" ++ l.Name)
      (NewProtoCompileRule "go" ⟨"foo", "foo_proto"⟩ [] []
        [("cpp", [])])).1.Attr "options"
      = some (.DictExpr [build.KeyValueExpr "cpp" ""]) ∧
    ¬ (∀ (str : label.Label → String) (s : ProtoCompileRule),
        (∀ kv ∈ s.generatedOptions, kv.2 = []) →
        (ProtoCompileRule.Rule str s).1.Attr "options" = none) := by
  refine ⟨by decide, by simp, rfl, ?_⟩
  intro h
  have h' := h (fun l => ":" ++ l.Name)
    (NewProtoCompileRule "go" ⟨"foo", "foo_proto"⟩ [] [] [("cpp", [])])
    (by simp [NewProtoCompileRule])
  have e : (ProtoCompileRule.Rule (fun l => ":" ++ l.Name)
      (NewProtoCompileRule "go" ⟨"foo", "foo_proto"⟩ [] []
        [("cpp", [])])).1.Attr "options"
      = some (.DictExpr [build.KeyValueExpr "cpp" ""]) := rfl
  rw [e] at h'
  exact Option.noConfusion h'

/-- C5, amended.  The `options` attribute is omitted exactly when the
options-by-plugin map has no key; this is the case of every map that
`GetPluginOptions` builds from a plugin list in which no plugin has a non-empty
option list. -/
theorem Rule_options_omitted_iff (str : label.Label → String) (prefix_ : String)
    (library : ProtoLibrary) (labels : List label.Label) (generatedSrcs : List String)
    (plugins : List PluginConfiguration) (h : ∀ p ∈ plugins, p.Options = []) :
    (ProtoCompileRule.Rule str (NewProtoCompileRule prefix_ library labels generatedSrcs
      (GetPluginOptions plugins).1)).1.Attr "options" = none ∧
    ∀ s : ProtoCompileRule,
      ((ProtoCompileRule.Rule str s).1.Attr "options" = none ↔
        GoMap.len s.generatedOptions = 0) := by
  have hiff : ∀ s : ProtoCompileRule,
      ((ProtoCompileRule.Rule str s).1.Attr "options" = none ↔
        GoMap.len s.generatedOptions = 0) := by
    intro s
    rw [Rule_fst]
    by_cases h0 : GoMap.len s.generatedOptions = 0
    · simp only [h0, gt_iff_lt, lt_self_iff_false, if_false, iff_true]
      rw [Attr_base]
      simp +decide
    · have hpos : GoMap.len s.generatedOptions > 0 := Nat.pos_of_ne_zero h0
      simp only [hpos, if_true, Attr_SetAttr, h0, iff_false]
      simp
  refine ⟨?_, hiff⟩
  rw [hiff]
  simp only [GetPluginOptions, NewProtoCompileRule]
  rw [GetPluginOptions_foldl_empty plugins h]
  rfl

theorem Rule_options_omitted_iff_witness :
    (∀ p ∈ [(⟨⟨"", "", "cpp", true⟩, [], "cpp", [], "", []⟩ : PluginConfiguration)],
      p.Options = []) ∧
    (ProtoCompileRule.Rule (fun l => ":" ++ l.Name)
      (NewProtoCompileRule "cpp" ⟨"foo", "foo_proto"⟩ [⟨"", "", "cpp", true⟩] ["foo.pb.cc"]
        (GetPluginOptions [⟨⟨"", "", "cpp", true⟩, [], "cpp", [], "", []⟩]).1)).1.Attr "options"
      = none :=
  ⟨by simp,
   (Rule_options_omitted_iff (fun l => ":" ++ l.Name) "cpp" ⟨"foo", "foo_proto"⟩
      [⟨"", "", "cpp", true⟩] ["foo.pb.cc"]
      [⟨⟨"", "", "cpp", true⟩, [], "cpp", [], "", []⟩] (by simp)).1⟩

/-! ## `GetPluginOptions` -/

theorem GetPluginOptions.get?_step (m : GoMap (List String)) (p : PluginConfiguration)
    (name : String) :
    GoMap.get? (GetPluginOptions.step m p) name
      = if p.Name = name ∧ p.Options ≠ [] then some p.Options else GoMap.get? m name := by
  unfold GetPluginOptions.step
  by_cases h : p.Options = []
  · simp [h]
  · have hl : ¬ p.Options.length = 0 := by simpa using h
    simp only [hl, if_false, GoMap.get?_set, h, ne_eq, not_false_eq_true, and_true]

theorem GetPluginOptions.get?_foldl (plugins : List PluginConfiguration)
    (m : GoMap (List String)) (name : String) :
    GoMap.get? (plugins.foldl GetPluginOptions.step m) name
      = match GetPluginOptions.last name plugins with
        | some p => some p.Options
        | none => GoMap.get? m name := by
  induction plugins generalizing m with
  | nil => simp [GetPluginOptions.last]
  | cons p ps ih =>
    rw [List.foldl_cons, ih]
    have hl : GetPluginOptions.last name (p :: ps)
        = (GetPluginOptions.last name ps).or
            (if p.Name = name ∧ p.Options ≠ [] then some p else none) := by
      simp only [GetPluginOptions.last, List.reverse_cons, List.find?_append]
      congr 1
      by_cases hp : p.Name = name ∧ p.Options ≠ []
      · simp [List.find?, hp]
      · simp [List.find?, hp]
    rw [hl]
    cases hps : GetPluginOptions.last name ps with
    | some q => simp
    | none =>
      simp only [Option.none_or, GetPluginOptions.get?_step]
      by_cases hp : p.Name = name ∧ p.Options ≠ [] <;> simp [hp]

theorem GetPluginOptions.last_some {name : String} {plugins : List PluginConfiguration}
    {p : PluginConfiguration} (h : GetPluginOptions.last name plugins = some p) :
    p ∈ plugins ∧ p.Name = name ∧ p.Options ≠ [] := by
  unfold GetPluginOptions.last at h
  have hm := List.mem_of_find?_eq_some h
  have hp := List.find?_some h
  exact ⟨List.mem_reverse.1 hm, by simpa using hp⟩

theorem GetPluginOptions.last_none {name : String} {plugins : List PluginConfiguration}
    (h : GetPluginOptions.last name plugins = none) :
    ∀ p ∈ plugins, ¬ (p.Name = name ∧ p.Options ≠ []) := by
  unfold GetPluginOptions.last at h
  intro p hp
  have := List.find?_eq_none.1 h p (List.mem_reverse.2 hp)
  simpa using this

theorem GetPluginOptions.get?_eq (plugins : List PluginConfiguration) (name : String) :
    GoMap.get? (GetPluginOptions plugins).1 name
      = (GetPluginOptions.last name plugins).map (·.Options) := by
  simp only [GetPluginOptions, GetPluginOptions.get?_foldl]
  cases GetPluginOptions.last name plugins <;> rfl

theorem GetPluginOptions.WF_foldl (plugins : List PluginConfiguration)
    (m : GoMap (List String)) (h : GoMap.WF m) :
    GoMap.WF (plugins.foldl GetPluginOptions.step m) := by
  induction plugins generalizing m with
  | nil => exact h
  | cons p ps ih =>
    rw [List.foldl_cons]
    apply ih
    unfold GetPluginOptions.step
    split
    · exact h
    · exact GoMap.WF_set h _ _

theorem GetPluginOptions.WF (plugins : List PluginConfiguration) :
    GoMap.WF (GetPluginOptions plugins).1 :=
  GetPluginOptions.WF_foldl plugins [] (by simp [GoMap.WF, GoMap.keys])

/-- With pairwise distinct names, a plugin that declares options is the one
found under its name. -/
theorem GetPluginOptions.get?_of_nodup {plugins : List PluginConfiguration}
    (hn : (plugins.map (·.Name)).Nodup) {p : PluginConfiguration} (hp : p ∈ plugins)
    (ho : p.Options ≠ []) :
    GoMap.get? (GetPluginOptions plugins).1 p.Name = some p.Options := by
  rw [GetPluginOptions.get?_eq]
  cases hl : GetPluginOptions.last p.Name plugins with
  | none => exact absurd ⟨rfl, ho⟩ (GetPluginOptions.last_none hl p hp)
  | some q =>
    obtain ⟨hq, hname, _⟩ := GetPluginOptions.last_some hl
    have : q = p := List.inj_on_of_nodup_map hn hq hp hname
    simp [this]

/-- C6. End-to-end option synthesis: for a plugin list with pairwise distinct
names and a rule whose map is the one `GetPluginOptions` built (in whatever
order the map enumerates it), the dict of `Options` has exactly one entry for
each plugin with a non-empty option list, valued as its options sorted and
comma-joined, and no entry for a plugin whose option list is empty; the `go`
and `cpp` plugins of the example yield the one entry of `go`. -/
theorem Options_of_GetPluginOptions (plugins : List PluginConfiguration)
    (hn : (plugins.map (·.Name)).Nodup) (s : ProtoCompileRule)
    (hwf : GoMap.WF s.generatedOptions)
    (hs : ∀ k, GoMap.get? s.generatedOptions k = GoMap.get? (GetPluginOptions plugins).1 k) :
    (∃ items : List (String × String),
      (ProtoCompileRule.Options s).1
        = .DictExpr (items.map (fun kv => build.KeyValueExpr kv.1 kv.2)) ∧
      (items.map Prod.fst).Nodup ∧
      (∀ p ∈ plugins, p.Options ≠ [] →
        (p.Name, strings_Join (sort_Strings p.Options) ",") ∈ items) ∧
      (∀ p ∈ plugins, p.Options = [] → p.Name ∉ items.map Prod.fst) ∧
      (∀ kv ∈ items, ∃ p ∈ plugins, p.Name = kv.1 ∧ p.Options ≠ [] ∧
        kv.2 = strings_Join (sort_Strings p.Options) ",")) ∧
    (ProtoCompileRule.Options (NewProtoCompileRule "go" ⟨"foo", "foo_proto"⟩
        [⟨"", "", "go", true⟩, ⟨"", "", "cpp", true⟩] ["foo.pb.go", "foo_grpc.pb.go"]
        (GetPluginOptions
          [⟨⟨"", "", "go", true⟩, [], "go", ["plugins=grpc", "paths=source_relative"], "", []⟩,
           ⟨⟨"", "", "cpp", true⟩, [], "cpp", [], "", []⟩]).1)).1
      = .DictExpr [build.KeyValueExpr "go" "paths=source_relative,plugins=grpc"] := by
  refine ⟨?_, rfl⟩
  let val : String → String := fun k =>
    strings_Join (sort_Strings ((GoMap.get? s.generatedOptions k).getD [])) ","
  have hkeys : ∀ k, k ∈ sort_Strings (GoMap.keys s.generatedOptions) ↔
      (GoMap.get? (GetPluginOptions plugins).1 k).isSome := by
    intro k
    rw [(sort_Strings_perm _).mem_iff, ← GoMap.get?_isSome_iff, hs k]
  refine ⟨(sort_Strings (GoMap.keys s.generatedOptions)).map (fun k => (k, val k)),
    ?_, ?_, ?_, ?_, ?_⟩
  · rw [ProtoCompileRule.Options_fst, List.map_map]
    rfl
  · rw [List.map_map]
    have : (Prod.fst ∘ fun k => (k, val k)) = id := rfl
    rw [this, List.map_id]
    exact (sort_Strings_perm _).nodup_iff.2 hwf
  · intro p hp ho
    have hg := GetPluginOptions.get?_of_nodup hn hp ho
    refine List.mem_map.2 ⟨p.Name, (hkeys p.Name).2 (by simp [hg]), ?_⟩
    simp only [val, hs p.Name, hg, Option.getD_some]
  · intro p hp ho hmem
    rw [List.map_map] at hmem
    have hid : (Prod.fst ∘ fun k => (k, val k)) = id := rfl
    rw [hid, List.map_id, hkeys, GetPluginOptions.get?_eq] at hmem
    cases hl : GetPluginOptions.last p.Name plugins with
    | none => simp [hl] at hmem
    | some q =>
      obtain ⟨hq, hname, hqo⟩ := GetPluginOptions.last_some hl
      have : q = p := List.inj_on_of_nodup_map hn hq hp hname
      exact hqo (this ▸ ho)
  · intro kv hkv
    obtain ⟨k, hk, rfl⟩ := List.mem_map.1 hkv
    have hsome := (hkeys k).1 hk
    rw [GetPluginOptions.get?_eq] at hsome
    cases hl : GetPluginOptions.last k plugins with
    | none => simp [hl] at hsome
    | some q =>
      obtain ⟨hq, hname, hqo⟩ := GetPluginOptions.last_some hl
      refine ⟨q, hq, hname, hqo, ?_⟩
      simp only [val, hs k, GetPluginOptions.get?_eq, hl, Option.map_some', Option.getD_some]

theorem Options_of_GetPluginOptions_witness :
    (([⟨⟨"", "", "go", true⟩, [], "go", ["plugins=grpc", "paths=source_relative"], "", []⟩,
       ⟨⟨"", "", "cpp", true⟩, [], "cpp", [], "", []⟩] :
        List PluginConfiguration).map (·.Name)).Nodup ∧
    GoMap.WF (GetPluginOptions
      [⟨⟨"", "", "go", true⟩, [], "go", ["plugins=grpc", "paths=source_relative"], "", []⟩,
       ⟨⟨"", "", "cpp", true⟩, [], "cpp", [], "", []⟩]).1 ∧
    ∃ items : List (String × String),
      (ProtoCompileRule.Options (NewProtoCompileRule "go" ⟨"foo", "foo_proto"⟩
        [⟨"", "", "go", true⟩, ⟨"", "", "cpp", true⟩] ["foo.pb.go", "foo_grpc.pb.go"]
        (GetPluginOptions
          [⟨⟨"", "", "go", true⟩, [], "go", ["plugins=grpc", "paths=source_relative"], "", []⟩,
           ⟨⟨"", "", "cpp", true⟩, [], "cpp", [], "", []⟩]).1)).1
        = .DictExpr (items.map (fun kv => build.KeyValueExpr kv.1 kv.2)) ∧
      (items.map Prod.fst).Nodup ∧
      ("go", "paths=source_relative,plugins=grpc") ∈ items ∧
      "cpp" ∉ items.map Prod.fst := by
  refine ⟨by decide, by decide, ?_⟩
  obtain ⟨items, h1, h2, h3, h4, _⟩ := (Options_of_GetPluginOptions
    [⟨⟨"", "", "go", true⟩, [], "go", ["plugins=grpc", "paths=source_relative"], "", []⟩,
     ⟨⟨"", "", "cpp", true⟩, [], "cpp", [], "", []⟩]
    (by decide)
    (NewProtoCompileRule "go" ⟨"foo", "foo_proto"⟩
        [⟨"", "", "go", true⟩, ⟨"", "", "cpp", true⟩] ["foo.pb.go", "foo_grpc.pb.go"]
        (GetPluginOptions
          [⟨⟨"", "", "go", true⟩, [], "go", ["plugins=grpc", "paths=source_relative"], "", []⟩,
           ⟨⟨"", "", "cpp", true⟩, [], "cpp", [], "", []⟩]).1)
    (by decide) (fun _ => rfl)).1
  refine ⟨items, h1, h2, ?_, ?_⟩
  · exact h3 ⟨⟨"", "", "go", true⟩, [], "go", ["plugins=grpc", "paths=source_relative"], "", []⟩
      (by simp) (by simp)
  · exact h4 ⟨⟨"", "", "cpp", true⟩, [], "cpp", [], "", []⟩ (by simp) rfl

/-- C10. For every plugin list, a name is a key of `GetPluginOptions(plugins)`
exactly when some plugin of the list has that name and a non-empty option list;
every value of the result is a non-empty option list, the one of a plugin of
that name, unchanged; the result is a well-formed map; and the plugin list is
after the call what it was before. -/
theorem GetPluginOptions_spec (plugins : List PluginConfiguration) :
    (∀ name, name ∈ GoMap.keys (GetPluginOptions plugins).1 ↔
      ∃ p ∈ plugins, p.Name = name ∧ p.Options ≠ []) ∧
    (∀ name opts, GoMap.get? (GetPluginOptions plugins).1 name = some opts →
      opts ≠ [] ∧ ∃ p ∈ plugins, p.Name = name ∧ p.Options = opts) ∧
    (∀ kv ∈ (GetPluginOptions plugins).1,
      kv.2 ≠ [] ∧ ∃ p ∈ plugins, p.Name = kv.1 ∧ p.Options = kv.2) ∧
    GoMap.WF (GetPluginOptions plugins).1 ∧
    (GetPluginOptions plugins).2 = plugins := by
  have hval : ∀ name opts, GoMap.get? (GetPluginOptions plugins).1 name = some opts →
      opts ≠ [] ∧ ∃ p ∈ plugins, p.Name = name ∧ p.Options = opts := by
    intro name opts h
    rw [GetPluginOptions.get?_eq] at h
    cases hl : GetPluginOptions.last name plugins with
    | none => simp [hl] at h
    | some q =>
      obtain ⟨hq, hname, hqo⟩ := GetPluginOptions.last_some hl
      have ho : q.Options = opts := by simpa [hl] using h
      exact ⟨ho ▸ hqo, q, hq, hname, ho⟩
  refine ⟨?_, hval, ?_, GetPluginOptions.WF plugins, rfl⟩
  · intro name
    rw [← GoMap.get?_isSome_iff, GetPluginOptions.get?_eq]
    constructor
    · intro h
      cases hl : GetPluginOptions.last name plugins with
      | none => simp [hl] at h
      | some q =>
        obtain ⟨hq, hname, hqo⟩ := GetPluginOptions.last_some hl
        exact ⟨q, hq, hname, hqo⟩
    · rintro ⟨p, hp, hname, ho⟩
      cases hl : GetPluginOptions.last name plugins with
      | none => exact absurd ⟨hname, ho⟩ (GetPluginOptions.last_none hl p hp)
      | some q => simp
  · intro kv hkv
    exact hval kv.1 kv.2 (GoMap.get?_of_mem (GetPluginOptions.WF plugins) hkv)

/-! ## `matchingFiles` -/

theorem matchingFiles.foldl_eq (files : GoMap ProtoFile) (srcs : List label.Label)
    (acc : List ProtoFile) :
    srcs.foldl (matchingFiles.step files) acc
      = acc ++ srcs.filterMap (fun src => GoMap.get? files src.Name) := by
  induction srcs generalizing acc with
  | nil => simp
  | cons src srcs ih =>
    rw [List.foldl_cons, ih]
    unfold matchingFiles.step
    cases h : GoMap.get? files src.Name with
    | none => simp [List.filterMap_cons, h]
    | some file => simp [List.filterMap_cons, h]

theorem matchingFiles_eq (files : GoMap ProtoFile) (srcs : List label.Label) :
    matchingFiles files srcs = srcs.filterMap (fun src => GoMap.get? files src.Name) := by
  simp [matchingFiles, matchingFiles.foldl_eq]

/-- C7. `matchingFiles` returns the sequence obtained by walking the requested
labels from left to right and emitting, for each label whose name is a key of
the known files, the file stored under that key.  Unmatched requests are
skipped, matched entries keep the requested order, a label requested `k` times
contributes `k` copies of its file, and the result is never longer than the
request. -/
theorem matchingFiles_spec (files : GoMap ProtoFile) (srcs : List label.Label) :
    matchingFiles files srcs = srcs.filterMap (fun src => GoMap.get? files src.Name) ∧
    (matchingFiles files srcs).length
      = srcs.countP (fun src => decide (src.Name ∈ GoMap.keys files)) ∧
    (matchingFiles files srcs).length ≤ srcs.length ∧
    (∀ before after : List label.Label, srcs = before ++ after →
      matchingFiles files srcs = matchingFiles files before ++ matchingFiles files after) ∧
    (∀ src, src.Name ∉ GoMap.keys files → matchingFiles files [src] = []) ∧
    (∀ src file (k : Nat), GoMap.get? files src.Name = some file →
      matchingFiles files (List.replicate k src) = List.replicate k file) := by
  refine ⟨matchingFiles_eq files srcs, ?_, ?_, ?_, ?_, ?_⟩
  · rw [matchingFiles_eq]
    induction srcs with
    | nil => rfl
    | cons src srcs ih =>
      cases h : GoMap.get? files src.Name with
      | none =>
        have hk : src.Name ∉ GoMap.keys files := (GoMap.get?_eq_none_iff files src.Name).1 h
        simp [List.filterMap_cons, h, hk, ih]
      | some file =>
        have hk : src.Name ∈ GoMap.keys files :=
          (GoMap.get?_isSome_iff files src.Name).1 (by simp [h])
        simp [List.filterMap_cons, h, hk, ih]
  · rw [matchingFiles_eq]
    exact List.length_filterMap_le _ srcs
  · intro before after h
    simp only [matchingFiles_eq, h, List.filterMap_append]
  · intro src h
    have hn := (GoMap.get?_eq_none_iff files src.Name).2 h
    simp [matchingFiles_eq, hn]
  · intro src file k h
    rw [matchingFiles_eq]
    induction k with
    | zero => rfl
    | succ k ih => simp [List.replicate_succ, List.filterMap_cons, h, ih]

/-- C8, as stated, fails: the matcher looks a label up by the key of the map and
never reads the `Name` field of the file it finds.  A file named `b` stored under
the key `a` is returned for the request `a`. -/
theorem matchingFiles_name_not_requested :
    GoMap.WF [("a", (NewProtoFile "" "b.proto" : ProtoFile))] ∧
    matchingFiles [("a", NewProtoFile "" "b.proto")] [⟨"", "", "a", false⟩]
      = [NewProtoFile "" "b.proto"] ∧
    ¬ (∀ (files : GoMap ProtoFile) (srcs : List label.Label),
        ∀ file ∈ matchingFiles files srcs, ∃ src ∈ srcs, file.Name = src.Name) := by
  refine ⟨by decide, rfl, ?_⟩
  intro h
  obtain ⟨src, hsrc, hname⟩ := h [("a", NewProtoFile "" "b.proto")] [⟨"", "", "a", false⟩]
    (NewProtoFile "" "b.proto") (by decide)
  rw [List.mem_singleton] at hsrc
  subst hsrc
  exact absurd hname (by decide)

/-- C8, amended.  Every file that `matchingFiles` returns is the one stored in
the known files under the name of some requested label; when the map stores
each file under its own `Name`, that `Name` is the name of a requested label. -/
theorem matchingFiles_sound (files : GoMap ProtoFile) (srcs : List label.Label)
    (hkeyed : ∀ kv ∈ files, kv.2.Name = kv.1) :
    ∀ file ∈ matchingFiles files srcs,
      ∃ src ∈ srcs, GoMap.get? files src.Name = some file ∧ file.Name = src.Name := by
  intro file hfile
  rw [matchingFiles_eq, List.mem_filterMap] at hfile
  obtain ⟨src, hsrc, hget⟩ := hfile
  exact ⟨src, hsrc, hget, hkeyed (src.Name, file) (GoMap.mem_of_get? hget)⟩

theorem matchingFiles_sound_witness :
    (∀ kv ∈ [("foo", (NewProtoFile "pkg" "foo.proto" : ProtoFile))], kv.2.Name = kv.1) ∧
    ∀ file ∈ matchingFiles [("foo", NewProtoFile "pkg" "foo.proto")]
        [⟨"", "", "foo", true⟩, ⟨"", "", "bar", true⟩],
      ∃ src ∈ [(⟨"", "", "foo", true⟩ : label.Label), ⟨"", "", "bar", true⟩],
        GoMap.get? [("foo", (NewProtoFile "pkg" "foo.proto" : ProtoFile))] src.Name = some file ∧
        file.Name = src.Name :=
  ⟨by decide,
   matchingFiles_sound [("foo", NewProtoFile "pkg" "foo.proto")]
     [⟨"", "", "foo", true⟩, ⟨"", "", "bar", true⟩] (by decide)⟩

/-- C9. Matcher completeness: when the name of every requested label is a key
of the known files, `matchingFiles` returns as many files as there are requests. -/
theorem matchingFiles_complete (files : GoMap ProtoFile) (srcs : List label.Label)
    (h : ∀ src ∈ srcs, src.Name ∈ GoMap.keys files) :
    (matchingFiles files srcs).length = srcs.length := by
  rw [matchingFiles_eq]
  induction srcs with
  | nil => rfl
  | cons src srcs ih =>
    have hsrc := h src (List.mem_cons_self src srcs)
    obtain ⟨file, hfile⟩ := Option.isSome_iff_exists.1
      ((GoMap.get?_isSome_iff files src.Name).2 hsrc)
    simp [List.filterMap_cons, hfile, ih (fun x hx => h x (List.mem_cons_of_mem src hx))]

theorem matchingFiles_complete_witness :
    (∀ src ∈ [(⟨"", "", "foo", true⟩ : label.Label), ⟨"", "", "bar", true⟩,
        ⟨"", "", "foo", true⟩],
      src.Name ∈ GoMap.keys [("bar", (NewProtoFile "pkg" "bar.proto" : ProtoFile)),
        ("foo", NewProtoFile "pkg" "foo.proto")]) ∧
    (matchingFiles [("bar", NewProtoFile "pkg" "bar.proto"), ("foo", NewProtoFile "pkg" "foo.proto")]
      [⟨"", "", "foo", true⟩, ⟨"", "", "bar", true⟩, ⟨"", "", "foo", true⟩]).length
      = [(⟨"", "", "foo", true⟩ : label.Label), ⟨"", "", "bar", true⟩,
          ⟨"", "", "foo", true⟩].length :=
  ⟨by decide,
   matchingFiles_complete
     [("bar", NewProtoFile "pkg" "bar.proto"), ("foo", NewProtoFile "pkg" "foo.proto")]
     [⟨"", "", "foo", true⟩, ⟨"", "", "bar", true⟩, ⟨"", "", "foo", true⟩] (by decide)⟩

/-! ## Plugins that share a name -/

theorem GetPluginOuts.outs_step (m : GoMap String) (p : PluginConfiguration) (name : String) :
    GoMap.get? (GetPluginOuts.step m p) name
      = if p.Name = name ∧ p.Out ≠ "" then some p.Out else GoMap.get? m name := by
  unfold GetPluginOuts.step
  by_cases h : p.Out = ""
  · simp [h]
  · simp only [h, if_false, GoMap.get?_set, ne_eq, not_false_eq_true, and_true]

theorem GetPluginOuts.outs_foldl (plugins : List PluginConfiguration) (m : GoMap String)
    (name : String) :
    GoMap.get? (plugins.foldl GetPluginOuts.step m) name
      = match GetPluginOuts.last name plugins with
        | some p => some p.Out
        | none => GoMap.get? m name := by
  induction plugins generalizing m with
  | nil => simp [GetPluginOuts.last]
  | cons p ps ih =>
    rw [List.foldl_cons, ih]
    have hl : GetPluginOuts.last name (p :: ps)
        = (GetPluginOuts.last name ps).or
            (if p.Name = name ∧ p.Out ≠ "" then some p else none) := by
      simp only [GetPluginOuts.last, List.reverse_cons, List.find?_append]
      congr 1
      by_cases hp : p.Name = name ∧ p.Out ≠ ""
      · simp [List.find?, hp]
      · simp [List.find?, hp]
    rw [hl]
    cases hps : GetPluginOuts.last name ps with
    | some q => simp
    | none =>
      simp only [Option.none_or, GetPluginOuts.outs_step]
      by_cases hp : p.Name = name ∧ p.Out ≠ "" <;> simp [hp]

/-- The last plugin satisfying `P` in `before ++ p :: after`, when `p` satisfies
it and nothing after `p` does. -/
theorem find?_reverse_split {α : Type} (P : α → Bool) (before after : List α) (p : α)
    (hp : P p = true) (hafter : ∀ q ∈ after, P q = false) :
    (before ++ p :: after).reverse.find? P = some p := by
  rw [List.reverse_append, List.reverse_cons, List.append_assoc, List.find?_append]
  have hnone : after.reverse.find? P = none := by
    rw [List.find?_eq_none]
    intro q hq
    simp [hafter q (List.mem_reverse.1 hq)]
  rw [hnone]
  simp [List.find?, hp]

/-- C11, as stated, fails: a later plugin of the same name whose option list
(output path) is empty is skipped, so the map keeps the value of the earlier
plugin, not that of the later one. -/
theorem GetPlugin_later_empty_keeps_earlier :
    GoMap.get? (GetPluginOptions
      [⟨⟨"", "", "go", true⟩, [], "go", ["plugins=grpc"], "gen", []⟩,
       ⟨⟨"", "", "go", true⟩, [], "go", [], "", []⟩]).1 "go" = some ["plugins=grpc"] ∧
    GoMap.get? (GetPluginOuts
      [⟨⟨"", "", "go", true⟩, [], "go", ["plugins=grpc"], "gen", []⟩,
       ⟨⟨"", "", "go", true⟩, [], "go", [], "", []⟩]) "go" = some "gen" ∧
    ¬ (∀ (before mid after : List PluginConfiguration) (p q : PluginConfiguration),
        p.Name = q.Name →
        GoMap.get? (GetPluginOptions (before ++ p :: mid ++ q :: after)).1 q.Name
          = some q.Options) ∧
    ¬ (∀ (before mid after : List PluginConfiguration) (p q : PluginConfiguration),
        p.Name = q.Name →
        GoMap.get? (GetPluginOuts (before ++ p :: mid ++ q :: after)) q.Name
          = some q.Out) := by
  refine ⟨rfl, rfl, ?_, ?_⟩
  · intro h
    have h' := h [] [] [] ⟨⟨"", "", "go", true⟩, [], "go", ["plugins=grpc"], "gen", []⟩
      ⟨⟨"", "", "go", true⟩, [], "go", [], "", []⟩ rfl
    have e : GoMap.get? (GetPluginOptions
        ([] ++ (⟨⟨"", "", "go", true⟩, [], "go", ["plugins=grpc"], "gen", []⟩ :
            PluginConfiguration) :: [] ++
          (⟨⟨"", "", "go", true⟩, [], "go", [], "", []⟩ : PluginConfiguration) :: [])).1 "go"
        = some ["plugins=grpc"] := rfl
    rw [e] at h'
    exact absurd h' (by decide)
  · intro h
    have h' := h [] [] [] ⟨⟨"", "", "go", true⟩, [], "go", ["plugins=grpc"], "gen", []⟩
      ⟨⟨"", "", "go", true⟩, [], "go", [], "", []⟩ rfl
    have e : GoMap.get? (GetPluginOuts
        ([] ++ (⟨⟨"", "", "go", true⟩, [], "go", ["plugins=grpc"], "gen", []⟩ :
            PluginConfiguration) :: [] ++
          (⟨⟨"", "", "go", true⟩, [], "go", [], "", []⟩ : PluginConfiguration) :: [])) "go"
        = some "gen" := rfl
    rw [e] at h'
    exact absurd h' (by decide)

/-- C11, amended.  Among the plugins of a name, the last one whose option list
is non-empty gives the value of `GetPluginOptions` at that name, and the last
one whose output path is non-empty gives the value of `GetPluginOuts`: a later
entry overwrites an earlier one, and a plugin with an empty option list (output
path) is skipped. -/
theorem GetPlugin_last_wins (before after : List PluginConfiguration)
    (p : PluginConfiguration) :
    (p.Options ≠ [] → (∀ q ∈ after, q.Name = p.Name → q.Options = []) →
      GoMap.get? (GetPluginOptions (before ++ p :: after)).1 p.Name = some p.Options) ∧
    (p.Out ≠ "" → (∀ q ∈ after, q.Name = p.Name → q.Out = "") →
      GoMap.get? (GetPluginOuts (before ++ p :: after)) p.Name = some p.Out) := by
  constructor
  · intro ho hafter
    rw [GetPluginOptions.get?_eq]
    have hl : GetPluginOptions.last p.Name (before ++ p :: after) = some p := by
      unfold GetPluginOptions.last
      apply find?_reverse_split
      · simp [ho]
      · intro q hq
        by_cases hn : q.Name = p.Name
        · simp [hn, hafter q hq hn]
        · simp [hn]
    rw [hl]
    rfl
  · intro ho hafter
    unfold GetPluginOuts
    rw [GetPluginOuts.outs_foldl]
    have hl : GetPluginOuts.last p.Name (before ++ p :: after) = some p := by
      unfold GetPluginOuts.last
      apply find?_reverse_split
      · simp [ho]
      · intro q hq
        by_cases hn : q.Name = p.Name
        · simp [hn, hafter q hq hn]
        · simp [hn]
    rw [hl]

theorem GetPlugin_last_wins_witness :
    GoMap.get? (GetPluginOptions
      ([⟨⟨"", "", "go", true⟩, [], "go", ["plugins=grpc"], "gen", []⟩] ++
        (⟨⟨"", "", "go", true⟩, [], "go", ["paths=source_relative"], "out", []⟩ :
          PluginConfiguration) ::
        [⟨⟨"", "", "go", true⟩, [], "go", [], "", []⟩])).1 "go"
      = some ["paths=source_relative"] ∧
    GoMap.get? (GetPluginOuts
      ([⟨⟨"", "", "go", true⟩, [], "go", ["plugins=grpc"], "gen", []⟩] ++
        (⟨⟨"", "", "go", true⟩, [], "go", ["paths=source_relative"], "out", []⟩ :
          PluginConfiguration) ::
        [⟨⟨"", "", "go", true⟩, [], "go", [], "", []⟩])) "go"
      = some "out" :=
  ⟨(GetPlugin_last_wins [⟨⟨"", "", "go", true⟩, [], "go", ["plugins=grpc"], "gen", []⟩]
      [⟨⟨"", "", "go", true⟩, [], "go", [], "", []⟩]
      ⟨⟨"", "", "go", true⟩, [], "go", ["paths=source_relative"], "out", []⟩).1
      (by decide) (by simp),
   (GetPlugin_last_wins [⟨⟨"", "", "go", true⟩, [], "go", ["plugins=grpc"], "gen", []⟩]
      [⟨⟨"", "", "go", true⟩, [], "go", [], "", []⟩]
      ⟨⟨"", "", "go", true⟩, [], "go", ["paths=source_relative"], "out", []⟩).2
      (by decide) (by simp)⟩

/-! ## Name, kind and dependencies of the rule -/

theorem kind_base (str : label.Label → String) (s : ProtoCompileRule) :
    (ProtoCompileRule.Rule.base str s).kind = "proto_compile" := by
  unfold ProtoCompileRule.Rule.base
  simp only [rule.Rule.SetAttr, kind_foldl_AddComment]
  by_cases hv : s.visibility.length > 0 <;> simp [hv, rule.NewRule, ProtoCompileRule.Kind]

/-- C12. Name derivation is total and exact: `Name` is the base name of the
library, then `_`, then the prefix, then `_compile`, character for character,
and the rule that `Rule` returns carries that name and the kind `proto_compile`. -/
theorem Name_derivation (str : label.Label → String) (s : ProtoCompileRule) :
    s.Name = s.library.BaseName ++ "_" ++ s.prefix_ ++ "_compile" ∧
    s.Name.data = s.library.BaseName.data ++ ['_'] ++ s.prefix_.data
      ++ ['_', 'c', 'o', 'm', 'p', 'i', 'l', 'e'] ∧
    s.Kind = "proto_compile" ∧
    (ProtoCompileRule.Rule str s).1.Name = s.Name ∧
    (ProtoCompileRule.Rule str s).1.Attr "name" = some (.StringExpr s.Name) ∧
    (ProtoCompileRule.Rule str s).1.Kind = "proto_compile" := by
  have hname : (ProtoCompileRule.Rule str s).1.Attr "name" = some (.StringExpr s.Name) := by
    rw [Rule_fst]
    by_cases h : GoMap.len s.generatedOptions > 0
    · simp only [h, if_true, Attr_SetAttr, Attr_base]
      simp +decide
    · simp only [h, if_false, Attr_base]
      simp +decide
  refine ⟨rfl, rfl, rfl, ?_, hname, ?_⟩
  · simp only [rule.Rule.Name, hname]
  · rw [Rule_fst]
    by_cases h : GoMap.len s.generatedOptions > 0
    · simp only [h, if_true, rule.Rule.Kind, rule.Rule.SetAttr, kind_base]
    · simp only [h, if_false, rule.Rule.Kind, kind_base]

/-- C13. For every ProtoCompileRule, `Deps` is a list of exactly one element,
the string `:` followed by the rule name of the owning library, whatever the
prefix, plugins, generated sources and options are. -/
theorem Deps_single (s : ProtoCompileRule) :
    s.Deps = [":" ++ s.library.Name] ∧
    s.Deps.length = 1 ∧
    (∀ d ∈ s.Deps, d.data = ':' :: s.library.Name.data) ∧
    (∀ (prefix_ : String) (plugins : List label.Label) (generatedSrcs : List String)
        (generatedOptions : GoMap (List String)),
      (NewProtoCompileRule prefix_ s.library plugins generatedSrcs generatedOptions).Deps
        = s.Deps) := by
  refine ⟨rfl, rfl, ?_, ?_⟩
  · intro d hd
    have : d = ":" ++ s.library.Name := by simpa [ProtoCompileRule.Deps] using hd
    rw [this]
    rfl
  · intro _ _ _ _
    rfl

/-! ## Calling `Options` twice -/

theorem Options_item_sorted (m : GoMap (List String)) (k : String) :
    ProtoCompileRule.Options.item (m.map (fun kv => (kv.1, sort_Strings kv.2))) k
      = ProtoCompileRule.Options.item m k := by
  unfold ProtoCompileRule.Options.item
  rw [GoMap.get?_map_val (fun _ v => sort_Strings v) m k]
  cases GoMap.get? m k with
  | none => rfl
  | some v => simp [sort_Strings_idem]

theorem base_Options_snd (str : label.Label → String) (s : ProtoCompileRule) :
    ProtoCompileRule.Rule.base str (ProtoCompileRule.Options s).2
      = ProtoCompileRule.Rule.base str s := by
  rw [ProtoCompileRule.Options_snd]
  rfl

theorem Rule_snd (str : label.Label → String) (s : ProtoCompileRule) :
    (ProtoCompileRule.Rule str s).2 = if GoMap.len s.generatedOptions = 0 then s
      else (ProtoCompileRule.Options s).2 := by
  unfold ProtoCompileRule.Rule
  by_cases h0 : GoMap.len s.generatedOptions = 0
  · simp [h0]
  · have hpos : GoMap.len s.generatedOptions > 0 := Nat.pos_of_ne_zero h0
    simp [h0, hpos]

/-- C19. `Options` is idempotent on a rule: a second call on the same rule,
whose stored option lists the first call has sorted in place, returns the dict
of the first call, so a second `Rule` call builds the same rule, with the same
`options` attribute. -/
theorem Options_idempotent (str : label.Label → String) (s : ProtoCompileRule) :
    (ProtoCompileRule.Options (ProtoCompileRule.Options s).2).1
      = (ProtoCompileRule.Options s).1 ∧
    (ProtoCompileRule.Options (ProtoCompileRule.Options s).2).2
      = (ProtoCompileRule.Options s).2 ∧
    (ProtoCompileRule.Rule str (ProtoCompileRule.Rule str s).2).1
      = (ProtoCompileRule.Rule str s).1 ∧
    (ProtoCompileRule.Rule str (ProtoCompileRule.Rule str s).2).1.Attr "options"
      = (ProtoCompileRule.Rule str s).1.Attr "options" := by
  have hkeys : GoMap.keys (s.generatedOptions.map (fun kv => (kv.1, sort_Strings kv.2)))
      = GoMap.keys s.generatedOptions := by
    simp [GoMap.keys, Function.comp_def]
  have h1 : (ProtoCompileRule.Options (ProtoCompileRule.Options s).2).1
      = (ProtoCompileRule.Options s).1 := by
    rw [ProtoCompileRule.Options_fst (ProtoCompileRule.Options s).2,
      ProtoCompileRule.Options_fst s, ProtoCompileRule.Options_snd]
    simp only [hkeys]
    congr 1
    apply List.map_congr_left
    intro k _
    exact Options_item_sorted s.generatedOptions k
  have h2 : (ProtoCompileRule.Options (ProtoCompileRule.Options s).2).2
      = (ProtoCompileRule.Options s).2 := by
    rw [ProtoCompileRule.Options_snd (ProtoCompileRule.Options s).2,
      ProtoCompileRule.Options_snd s]
    simp [List.map_map, Function.comp_def, sort_Strings_idem]
  have h3 : (ProtoCompileRule.Rule str (ProtoCompileRule.Rule str s).2).1
      = (ProtoCompileRule.Rule str s).1 := by
    have hsnd := Rule_snd str s
    by_cases h0 : GoMap.len s.generatedOptions = 0
    · rw [hsnd]
      simp [h0]
    · have hpos : GoMap.len s.generatedOptions > 0 := Nat.pos_of_ne_zero h0
      have hlen : GoMap.len (ProtoCompileRule.Options s).2.generatedOptions > 0 := by
        rw [ProtoCompileRule.Options_snd]
        simpa [GoMap.len] using hpos
      rw [hsnd]
      simp only [h0, if_false]
      rw [Rule_fst, Rule_fst]
      simp only [hlen, hpos, if_true, h1, base_Options_snd]
  exact ⟨h1, h2, h3, by rw [h3]⟩

/-! ## `NewProtoFile` -/

theorem filepath_Ext.loop_suffix (rev acc : List Char) :
    ∃ pre, rev.reverse ++ acc = pre ++ filepath_Ext.loop rev acc := by
  induction rev generalizing acc with
  | nil => exact ⟨acc, by simp [filepath_Ext.loop]⟩
  | cons c rest ih =>
    unfold filepath_Ext.loop
    by_cases hs : c = '/'
    · exact ⟨(c :: rest).reverse ++ acc, by simp [hs]⟩
    · by_cases hd : c = '.'
      · exact ⟨rest.reverse, by simp [hs, hd]⟩
      · obtain ⟨pre, hpre⟩ := ih (c :: acc)
        refine ⟨pre, ?_⟩
        simp only [hs, hd, if_false, List.reverse_cons, List.append_assoc,
          List.singleton_append]
        exact hpre

theorem filepath_Ext.loop_spec (rev acc : List Char) (hd : '.' ∉ acc) (hs : '/' ∉ acc) :
    (filepath_Ext.loop rev acc = [] ∧ '.' ∉ rev.takeWhile (fun c => decide (c ≠ '/'))) ∨
    (∃ rest, filepath_Ext.loop rev acc = '.' :: rest ∧ '.' ∉ rest ∧ '/' ∉ rest) := by
  induction rev generalizing acc with
  | nil => exact Or.inl ⟨rfl, by simp⟩
  | cons c rest ih =>
    unfold filepath_Ext.loop
    by_cases hcs : c = '/'
    · exact Or.inl ⟨by simp [hcs], by simp [hcs]⟩
    · by_cases hcd : c = '.'
      · exact Or.inr ⟨acc, by simp [hcd], hd, hs⟩
      · have hd' : '.' ∉ c :: acc := by
          simp only [List.mem_cons, not_or]
          exact ⟨fun e => hcd e.symm, hd⟩
        have hs' : '/' ∉ c :: acc := by
          simp only [List.mem_cons, not_or]
          exact ⟨fun e => hcs e.symm, hs⟩
        rcases ih (c :: acc) hd' hs' with ⟨h1, h2⟩ | h
        · left
          refine ⟨by simp [hcs, hcd, h1], ?_⟩
          simp only [List.takeWhile_cons, hcs, ne_eq, not_false_eq_true, decide_True, if_true,
            List.mem_cons, not_or]
          exact ⟨fun e => hcd e.symm, h2⟩
        · right
          simpa [hcs, hcd] using h

theorem strings_TrimSuffix_of_suffix (s suffix : String) (pre : List Char)
    (h : s.data = pre ++ suffix.data) : (strings_TrimSuffix s suffix).data = pre := by
  have hlen : s.data.length - suffix.data.length = pre.length := by
    rw [h, List.length_append, Nat.add_sub_cancel]
  have hge : s.data.length ≥ suffix.data.length := by
    rw [h, List.length_append]
    exact Nat.le_add_left _ _
  have hdrop : s.data.drop (s.data.length - suffix.data.length) = suffix.data := by
    rw [hlen, h, List.drop_left]
  have htake : s.data.take (s.data.length - suffix.data.length) = pre := by
    rw [hlen, h, List.take_left]
  simp only [strings_TrimSuffix, strings_HasSuffix, hge, hdrop, decide_True, Bool.and_self,
    if_true, htake]

/-- C14. For every directory and base filename, `NewProtoFile` stores `Dir` and
`Basename` unchanged and sets `Name` to the base filename without its
extension: `Name` followed by the extension is `Basename`, where the extension
is empty when the final path element has no dot and otherwise starts at the last
dot of that element (it has no further dot and no separator).  For `foo.proto`
the name is `foo`. -/
theorem NewProtoFile_spec (dir basename : String) :
    (NewProtoFile dir basename).Dir = dir ∧
    (NewProtoFile dir basename).Basename = basename ∧
    (NewProtoFile dir basename).Name ++ filepath_Ext basename = basename ∧
    ((filepath_Ext basename = "" ∧
        '.' ∉ basename.data.reverse.takeWhile (fun c => decide (c ≠ '/'))) ∨
      (∃ rest, (filepath_Ext basename).data = '.' :: rest ∧ '.' ∉ rest ∧ '/' ∉ rest)) ∧
    (NewProtoFile dir "foo.proto").Name = "foo" := by
  refine ⟨rfl, rfl, ?_, ?_, rfl⟩
  · obtain ⟨pre, hpre⟩ := filepath_Ext.loop_suffix basename.data.reverse []
    have hsuf : basename.data = pre ++ (filepath_Ext basename).data := by
      simpa [filepath_Ext] using hpre
    apply String.ext
    show (strings_TrimSuffix basename (filepath_Ext basename)).data
      ++ (filepath_Ext basename).data = basename.data
    rw [strings_TrimSuffix_of_suffix basename (filepath_Ext basename) pre hsuf]
    exact hsuf.symm
  · rcases filepath_Ext.loop_spec basename.data.reverse [] (by simp) (by simp) with
      ⟨h1, h2⟩ | h
    · left
      refine ⟨?_, h2⟩
      apply String.ext
      simpa [filepath_Ext] using h1
    · right
      simpa [filepath_Ext] using h

/-! ## `getGoPackageOption` -/

theorem strings_SplitN.cut_eq (sep : Char) (l : List Char) :
    strings_SplitN.cut sep l
      = if sep ∈ l then
          some (l.takeWhile (fun c => decide (c ≠ sep)),
            (l.dropWhile (fun c => decide (c ≠ sep))).drop 1)
        else none := by
  induction l with
  | nil => simp [strings_SplitN.cut]
  | cons c cs ih =>
    unfold strings_SplitN.cut
    by_cases h : c = sep
    · simp [h]
    · have h' : ¬ sep = c := fun e => h e.symm
      rw [ih]
      by_cases hm : sep ∈ cs
      · simp [h, h', hm, List.takeWhile_cons, List.dropWhile_cons]
      · simp [h, h', hm]

theorem takeWhile_dropWhile_of_not_mem (sep : Char) (l : List Char) (h : sep ∉ l) :
    l.takeWhile (fun c => decide (c ≠ sep)) = l ∧
    (l.dropWhile (fun c => decide (c ≠ sep))).drop 1 = [] := by
  induction l with
  | nil => simp
  | cons c cs ih =>
    have hc : c ≠ sep := fun e => h (e ▸ List.mem_cons_self c cs)
    have hcs : sep ∉ cs := fun hm => h (List.mem_cons_of_mem c hm)
    obtain ⟨h1, h2⟩ := ih hcs
    have hdec : decide (c ≠ sep) = true := by simp [hc]
    rw [List.takeWhile_cons, List.dropWhile_cons, hdec]
    simp only [if_true]
    exact ⟨by rw [h1], h2⟩

/-- The two parts that `strings.SplitN(s, ";", 2)` gives to `getGoPackageOption`. -/
theorem strings_SplitN_two (src : String) :
    (match strings_SplitN src ';' 2 with
      | [] => ("", "", true)
      | [p0] => (p0, "", true)
      | [p0, p1] => (p0, p1, true)
      | p0 :: rest => (p0, strings_Join rest ";", true))
      = ((⟨src.data.takeWhile (fun c => decide (c ≠ ';'))⟩ : String),
         (⟨(src.data.dropWhile (fun c => decide (c ≠ ';'))).drop 1⟩ : String), true) := by
  have hsplit : strings_SplitN src ';' 2 = strings_SplitN.loop ';' 1 src.data := rfl
  rw [hsplit]
  unfold strings_SplitN.loop
  rw [strings_SplitN.cut_eq]
  by_cases hm : ';' ∈ src.data
  · simp [hm, strings_SplitN.loop]
  · obtain ⟨h1, h2⟩ := takeWhile_dropWhile_of_not_mem ';' src.data hm
    simp only [hm, if_false, h1, h2]

/-- C15. `getGoPackageOption` reports `false`, with two empty strings, exactly
when no option is named `go_package`.  Otherwise it reports `true` and, for the
first option named `go_package`, the part of its constant source before the
first `;` (all of it when there is none) as the import path and the part after
that `;` (empty when there is none) as the alias. -/
theorem getGoPackageOption_spec (options : List proto.Option) :
    getGoPackageOption options
      = (match options.find? (fun o => decide (o.Name = "go_package")) with
        | none => ("", "", false)
        | some o =>
          ((⟨o.Constant.Source.data.takeWhile (fun c => decide (c ≠ ';'))⟩ : String),
           (⟨(o.Constant.Source.data.dropWhile (fun c => decide (c ≠ ';'))).drop 1⟩ : String),
           true)) ∧
    ((getGoPackageOption options).2.2 = false ↔
      ∀ o ∈ options, o.Name ≠ "go_package") ∧
    ((∀ o ∈ options, o.Name ≠ "go_package") →
      getGoPackageOption options = ("", "", false)) ∧
    getGoPackageOption [⟨"java_package", ⟨"com.foo.bar"⟩⟩,
        ⟨"go_package", ⟨"github.com/foo/bar/v1;bar"⟩⟩]
      = ("github.com/foo/bar/v1", "bar", true) := by
  have hmain : getGoPackageOption options
      = (match options.find? (fun o => decide (o.Name = "go_package")) with
        | none => ("", "", false)
        | some o =>
          ((⟨o.Constant.Source.data.takeWhile (fun c => decide (c ≠ ';'))⟩ : String),
           (⟨(o.Constant.Source.data.dropWhile (fun c => decide (c ≠ ';'))).drop 1⟩ : String),
           true)) := by
    induction options with
    | nil => rfl
    | cons opt rest ih =>
      unfold getGoPackageOption
      by_cases h : opt.Name = "go_package"
      · simp only [h, ne_eq, not_true_eq_false, if_false, List.find?_cons, decide_True]
        exact strings_SplitN_two opt.Constant.Source
      · simp only [h, ne_eq, not_false_eq_true, if_true, List.find?_cons, decide_False]
        exact ih
  have hiff : (getGoPackageOption options).2.2 = false ↔
      ∀ o ∈ options, o.Name ≠ "go_package" := by
    rw [hmain]
    cases hf : options.find? (fun o => decide (o.Name = "go_package")) with
    | none =>
      simp only [true_iff]
      intro o ho
      simpa using List.find?_eq_none.1 hf o ho
    | some o =>
      simp only [Bool.true_eq_false, false_iff]
      intro hall
      have hm := List.mem_of_find?_eq_some hf
      have hp := List.find?_some hf
      exact hall o hm (by simpa using hp)
  refine ⟨hmain, hiff, ?_, rfl⟩
  intro hall
  rw [hmain]
  have hnone : options.find? (fun o => decide (o.Name = "go_package")) = none := by
    rw [List.find?_eq_none]
    intro o ho
    simpa using hall o ho
  rw [hnone]

/-! ## `parseReader` -/

/-- C16. Parse is all-or-nothing: when the grammar parser rejects the input,
`parseReader` returns an error that wraps the error of the parser, whose message
is `could not parse`, the `Dir` and the `Basename` of the file joined by `/`,
and the message of the cause; and every field of the file is what it was
before the call. -/
theorem parseReader_rejected (Parse : String → Except GoError (List proto.Visitee))
    (VisitEnum : List proto.Option → proto.Enum → List proto.Option)
    (f : ProtoFile) (input : String) (err : GoError) (h : Parse input = .error err) :
    (∃ e, (ProtoFile.parseReader Parse VisitEnum f input).1 = some e ∧
      e.Unwrap = some err ∧
      e.Error = "could not parse " ++ f.Dir ++ "/" ++ f.Basename ++ ": " ++ err.Error ∧
      (f.Dir.data ++ '/' :: f.Basename.data) <:+: e.Error.data) ∧
    (ProtoFile.parseReader Parse VisitEnum f input).2 = f := by
  unfold ProtoFile.parseReader
  rw [h]
  refine ⟨⟨_, rfl, rfl, rfl, ?_⟩, rfl⟩
  refine ⟨"could not parse ".data, (": " ++ err.Error).data, ?_⟩
  simp [GoError.Error, List.append_assoc]

theorem parseReader_rejected_witness :
    ((fun _ => Except.error (GoError.errorString "unexpected token mesage"))
        : String → Except GoError (List proto.Visitee)) "mesage Foo"
      = .error (GoError.errorString "unexpected token mesage") ∧
    (∃ e, (ProtoFile.parseReader
        (fun _ => .error (.errorString "unexpected token mesage"))
        (fun opts e => opts ++ e.Options)
        (NewProtoFile "pkg" "foo.proto") "mesage Foo").1 = some e ∧
      e.Unwrap = some (.errorString "unexpected token mesage") ∧
      e.Error = "could not parse pkg/foo.proto: unexpected token mesage") ∧
    (ProtoFile.parseReader
        (fun _ => .error (.errorString "unexpected token mesage"))
        (fun opts e => opts ++ e.Options)
        (NewProtoFile "pkg" "foo.proto") "mesage Foo").2 = NewProtoFile "pkg" "foo.proto" := by
  obtain ⟨⟨e, h1, h2, h3, _⟩, h4⟩ := parseReader_rejected
    (fun _ => .error (.errorString "unexpected token mesage"))
    (fun opts e => opts ++ e.Options)
    (NewProtoFile "pkg" "foo.proto") "mesage Foo"
    (.errorString "unexpected token mesage") rfl
  exact ⟨rfl, ⟨e, h1, h2, h3⟩, h4⟩

end Protoc

/-! ## `GenerateRules` -/

namespace Laze

open Protoc

namespace protoRuleLang

/-- A generated test rule: kind, name, sources and the one dependency. -/
theorem testRule_attrs (kind name : String) (srcs : List String) (dep : String) :
    (((rule.NewRule kind name).SetAttr "srcs" (rule.ExprFromStrings srcs)).SetAttr "deps"
        (rule.ExprFromStrings [dep])).Kind = kind ∧
    (((rule.NewRule kind name).SetAttr "srcs" (rule.ExprFromStrings srcs)).SetAttr "deps"
        (rule.ExprFromStrings [dep])).Name = name ∧
    (((rule.NewRule kind name).SetAttr "srcs" (rule.ExprFromStrings srcs)).SetAttr "deps"
        (rule.ExprFromStrings [dep])).Attr "srcs" = some (.ListExpr (srcs.map .StringExpr)) ∧
    (((rule.NewRule kind name).SetAttr "srcs" (rule.ExprFromStrings srcs)).SetAttr "deps"
        (rule.ExprFromStrings [dep])).Attr "deps" = some (.ListExpr [.StringExpr dep]) := by
  refine ⟨rfl, ?_, ?_, ?_⟩
  · have h : (((rule.NewRule kind name).SetAttr "srcs" (rule.ExprFromStrings srcs)).SetAttr
        "deps" (rule.ExprFromStrings [dep])).Attr "name" = some (.StringExpr name) := by
      simp only [Attr_SetAttr]
      simp +decide [rule.Rule.Attr, rule.NewRule, GoMap.get?]
    simp only [rule.Rule.Name, h]
  · simp only [Attr_SetAttr]
    simp +decide [rule.ExprFromStrings]
  · simp only [Attr_SetAttr]
    simp +decide [rule.ExprFromStrings]

theorem GenerateRules.out_plugin (r : rule.Rule) (h : r.Kind = "proto_plugin") :
    GenerateRules.out r
      = [((rule.NewRule "proto_plugin_info_provider_test" (r.Name ++ "_info_provider_test")).SetAttr
            "srcs" (rule.ExprFromStrings
              [r.Name ++ "_info_provider_test" ++ ".golden.1.prototext"])).SetAttr
            "deps" (rule.ExprFromStrings [":" ++ r.Name])] := by
  simp [GenerateRules.out, GenerateRules.step, h]

theorem GenerateRules.out_rule (r : rule.Rule) (h : r.Kind = "proto_rule") :
    GenerateRules.out r
      = [((rule.NewRule "proto_rule_info_provider_test" (r.Name ++ "_info_provider_test")).SetAttr
            "srcs" (rule.ExprFromStrings
              [r.Name ++ "_info_provider_test" ++ ".golden.1.prototext"])).SetAttr
            "deps" (rule.ExprFromStrings [":" ++ r.Name]),
         ((rule.NewRule "proto_rule_test" (r.Name ++ "_test")).SetAttr
            "srcs" (rule.ExprFromStrings [r.Name ++ ".bzl", r.Name ++ "_deps.bzl"])).SetAttr
            "deps" (rule.ExprFromStrings [":" ++ r.Name])] := by
  simp [GenerateRules.out, GenerateRules.step, h]

theorem GenerateRules.out_other (r : rule.Rule) (h1 : r.Kind ≠ "proto_plugin")
    (h2 : r.Kind ≠ "proto_rule") : GenerateRules.out r = [] := by
  simp [GenerateRules.out, GenerateRules.step, h1, h2]

theorem GenerateRules.step_eq (st : List rule.Rule × List (List String)) (r : rule.Rule) :
    GenerateRules.step st r
      = (st.1 ++ GenerateRules.out r, st.2 ++ (GenerateRules.out r).map (fun g => [g.Kind])) := by
  by_cases h1 : r.Kind = "proto_plugin"
  · rw [GenerateRules.out_plugin r h1]
    simp only [GenerateRules.step, h1, if_true, List.map_cons, List.map_nil]
    rfl
  · by_cases h2 : r.Kind = "proto_rule"
    · rw [GenerateRules.out_rule r h2]
      simp only [GenerateRules.step, h1, h2, if_true, if_false, List.map_cons, List.map_nil,
        List.append_assoc, List.singleton_append]
      rfl
    · rw [GenerateRules.out_other r h1 h2]
      simp [GenerateRules.step, h1, h2]

theorem GenerateRules.foldl_out (rules : List rule.Rule)
    (st : List rule.Rule × List (List String)) :
    rules.foldl GenerateRules.step st
      = (st.1 ++ (rules.map GenerateRules.out).flatten,
         st.2 ++ ((rules.map GenerateRules.out).flatten).map (fun g => [g.Kind])) := by
  induction rules generalizing st with
  | nil => simp
  | cons r rules ih =>
    rw [List.foldl_cons, ih, GenerateRules.step_eq]
    simp [List.append_assoc]

theorem GenerateRules_eq (rules : List rule.Rule) :
    GenerateRules { File := some { Rules := rules } }
      = some { Gen := (rules.map GenerateRules.out).flatten,
               Imports := ((rules.map GenerateRules.out).flatten).map (fun g => [g.Kind]) } := by
  simp [GenerateRules, GenerateRules.foldl_out]

/-- C17. `GenerateRules` generates provider test targets for every
`proto_plugin` and `proto_rule` rule of the existing build file and for nothing
else: the generated rules are, in the order of the existing rules, one
`proto_plugin_info_provider_test` named `n_info_provider_test` for a
`proto_plugin` named `n`; one `proto_rule_info_provider_test` named
`n_info_provider_test` and then one `proto_rule_test` named `n_test` for a
`proto_rule` named `n`; nothing for any other kind.  Every generated rule has
the dependencies `[":" + n]`. -/
theorem GenerateRules_tests (rules : List rule.Rule) :
    (GenerateRules { File := some { Rules := rules } }).map (·.Gen)
      = some ((rules.map GenerateRules.out).flatten) ∧
    ∀ r : rule.Rule,
      (r.Kind = "proto_plugin" →
        ∃ g, GenerateRules.out r = [g] ∧
          g.Kind = "proto_plugin_info_provider_test" ∧
          g.Name = r.Name ++ "_info_provider_test" ∧
          g.Attr "deps" = some (.ListExpr [.StringExpr (":" ++ r.Name)])) ∧
      (r.Kind = "proto_rule" →
        ∃ g₁ g₂, GenerateRules.out r = [g₁, g₂] ∧
          g₁.Kind = "proto_rule_info_provider_test" ∧
          g₁.Name = r.Name ++ "_info_provider_test" ∧
          g₁.Attr "deps" = some (.ListExpr [.StringExpr (":" ++ r.Name)]) ∧
          g₂.Kind = "proto_rule_test" ∧
          g₂.Name = r.Name ++ "_test" ∧
          g₂.Attr "deps" = some (.ListExpr [.StringExpr (":" ++ r.Name)])) ∧
      (r.Kind ≠ "proto_plugin" → r.Kind ≠ "proto_rule" → GenerateRules.out r = []) := by
  refine ⟨by rw [GenerateRules_eq]; rfl, ?_⟩
  intro r
  refine ⟨?_, ?_, GenerateRules.out_other r⟩
  · intro h
    obtain ⟨hk, hn, _, hd⟩ := testRule_attrs "proto_plugin_info_provider_test"
      (r.Name ++ "_info_provider_test")
      [r.Name ++ "_info_provider_test" ++ ".golden.1.prototext"] (":" ++ r.Name)
    exact ⟨_, GenerateRules.out_plugin r h, hk, hn, hd⟩
  · intro h
    obtain ⟨hk, hn, _, hd⟩ := testRule_attrs "proto_rule_info_provider_test"
      (r.Name ++ "_info_provider_test")
      [r.Name ++ "_info_provider_test" ++ ".golden.1.prototext"] (":" ++ r.Name)
    obtain ⟨hk', hn', _, hd'⟩ := testRule_attrs "proto_rule_test" (r.Name ++ "_test")
      [r.Name ++ ".bzl", r.Name ++ "_deps.bzl"] (":" ++ r.Name)
    exact ⟨_, _, GenerateRules.out_rule r h, hk, hn, hd, hk', hn', hd'⟩

/-- C18 evaluated on the code: the language name is `rules_proto`, every key of
`Kinds` and the kind of the rule generated for a `proto_plugin` start with
`proto_`, and the name is a prefix of none of them. -/
theorem Name_not_prefix_of_kinds :
    Name = "rules_proto" ∧
    GoMap.keys Kinds
      = ["proto_plugin_info_provider_test", "proto_rule_info_provider_test",
         "proto_rule_test"] ∧
    (∀ kind ∈ GoMap.keys Kinds, ¬ Name.data <+: kind.data) ∧
    (GenerateRules { File := some { Rules := [rule.NewRule "proto_plugin" "foo"] } }).map
        (fun res => res.Gen.map (·.Kind))
      = some ["proto_plugin_info_provider_test"] ∧
    ¬ Name.data <+: "proto_plugin_info_provider_test".data := by
  refine ⟨rfl, rfl, ?_, rfl, by decide⟩
  intro kind hkind
  have hk : kind = "proto_plugin_info_provider_test" ∨ kind = "proto_rule_info_provider_test"
      ∨ kind = "proto_rule_test" := by
    simpa [Kinds, kinds, GoMap.keys] using hkind
  rcases hk with rfl | rfl | rfl <;> decide

/-- C20. For every list of existing rules, the result of `GenerateRules` has
`Gen` and `Imports` of equal length, the import at every index is the one-element
list holding the kind of the rule at that index, and every generated rule has a
kind that is a key of `Kinds` and non-empty `srcs` and `deps` attributes, the
attributes that the `NonEmptyAttrs` of its kind name. -/
theorem GenerateRules_result (rules : List rule.Rule) :
    ∃ res, GenerateRules { File := some { Rules := rules } } = some res ∧
      res.Gen.length = res.Imports.length ∧
      (∀ i : Nat, res.Imports[i]? = (res.Gen[i]?).map (fun g => [g.Kind])) ∧
      ∀ g ∈ res.Gen, ∃ info, GoMap.get? Kinds g.Kind = some info ∧
        GoMap.keys info.NonEmptyAttrs = ["srcs", "deps"] ∧
        (∀ attr ∈ GoMap.keys info.NonEmptyAttrs,
          ∃ e es, g.Attr attr = some (.ListExpr (e :: es))) := by
  refine ⟨_, GenerateRules_eq rules, by simp only [List.length_map], ?_, ?_⟩
  · intro i
    simp only [List.getElem?_map]
  · intro g hg
    obtain ⟨outs, houts, hgo⟩ := List.mem_flatten.1 hg
    obtain ⟨r, _, rfl⟩ := List.mem_map.1 houts
    have key : ∀ (kind name : String) (s : String) (ss : List String) (dep : String),
        GoMap.get? Kinds kind
          = some (⟨[("srcs", true), ("deps", true)], [("srcs", true)]⟩ : rule.KindInfo) →
        ∃ info, GoMap.get? Kinds (((rule.NewRule kind name).SetAttr "srcs"
            (rule.ExprFromStrings (s :: ss))).SetAttr "deps"
            (rule.ExprFromStrings [dep])).Kind = some info ∧
          GoMap.keys info.NonEmptyAttrs = ["srcs", "deps"] ∧
          (∀ attr ∈ GoMap.keys info.NonEmptyAttrs,
            ∃ e es, (((rule.NewRule kind name).SetAttr "srcs"
              (rule.ExprFromStrings (s :: ss))).SetAttr "deps"
              (rule.ExprFromStrings [dep])).Attr attr = some (.ListExpr (e :: es))) := by
      intro kind name s ss dep hkind
      obtain ⟨hk, _, hs, hd⟩ := testRule_attrs kind name (s :: ss) dep
      refine ⟨⟨[("srcs", true), ("deps", true)], [("srcs", true)]⟩,
        by rw [hk]; exact hkind, rfl, ?_⟩
      intro attr hattr
      have ha : attr = "srcs" ∨ attr = "deps" := by simpa [GoMap.keys] using hattr
      rcases ha with rfl | rfl
      · exact ⟨_, _, hs⟩
      · exact ⟨_, _, hd⟩
    by_cases h1 : r.Kind = "proto_plugin"
    · rw [GenerateRules.out_plugin r h1, List.mem_singleton] at hgo
      rw [hgo]
      exact key _ _ _ _ _ rfl
    · by_cases h2 : r.Kind = "proto_rule"
      · rw [GenerateRules.out_rule r h2] at hgo
        rcases List.mem_cons.1 hgo with hgo' | hgo'
        · rw [hgo']
          exact key _ _ _ _ _ rfl
        · rw [List.mem_singleton.1 hgo']
          exact key _ _ _ _ _ rfl
      · rw [GenerateRules.out_other r h1 h2] at hgo
        simp at hgo

end protoRuleLang

end Laze
